import Mathlib

/-!
Verification of the Anymino incremental constraint propagator
(`cspuz_rs_puzzles/src/puzzles/anymino.rs`).

The Rust source is shallowly embedded as follows.

* `i32` coordinates are modelled by unbounded `Int` (no arithmetic in the
  propagator can overflow on the intended board sizes).
* Rust `Vec<(i32,i32)>` becomes `List (Int × Int)`; the derived tuple and
  `Vec` orderings of Rust (`Ord`) are reproduced by `pairLt` / `listLt`.
* Rust `HashSet` becomes an insertion-ordered duplicate-free `List`
  (`hsInsert`).  A `HashSet`'s iteration order is unspecified in Rust, so
  every place where the code iterates over a hash set takes an explicit
  iteration-order parameter (`σc` for coordinate sets, `σr` for room-id
  sets); a valid order maps each list to a permutation of itself.
* `Vec::sort` (a total-order sort; stability is irrelevant because equal
  elements of `(i32,i32)` are identical) is modelled by `List.insertionSort`
  over the same order.
* The fold `let mut min_y = i32::MAX; for .. { min_y = min_y.min(y) }` is
  the idiom for the minimum of a nonempty list of `i32` values; it is
  modelled by `foldMinFst` / `foldMinSnd` (first element as initial
  accumulator), which agree with the Rust fold on every list of `i32`
  values.  The `ymax` folds of `flip_block` / `rotate_block` start from `0`
  in the source and are modelled with initial accumulator `0` (`foldMax0`).
-/

/-! ### Rust orderings on `(i32, i32)` and `Vec<(i32, i32)>` -/

/-- Strict lexicographic order on integer pairs: Rust's derived
`Ord` for `(i32, i32)`, as a `Bool`. -/
def pairLt (a b : Int × Int) : Bool :=
  decide (a.1 < b.1) || (decide (a.1 = b.1) && decide (a.2 < b.2))

/-- Non-strict lexicographic order on integer pairs. -/
def pairLe (a b : Int × Int) : Prop :=
  a.1 < b.1 ∨ (a.1 = b.1 ∧ a.2 ≤ b.2)

instance : DecidableRel pairLe := fun a b => by
  unfold pairLe; infer_instance

instance : IsTotal (Int × Int) pairLe :=
  ⟨fun a b => by unfold pairLe; omega⟩

instance : IsTrans (Int × Int) pairLe :=
  ⟨fun a b c hab hbc => by unfold pairLe at *; omega⟩

instance : IsAntisymm (Int × Int) pairLe :=
  ⟨fun a b hab hba => by
    unfold pairLe at hab hba
    have h1 : a.1 = b.1 := by omega
    have h2 : a.2 = b.2 := by omega
    exact Prod.ext h1 h2⟩

theorem pairLt_iff (a b : Int × Int) :
    pairLt a b = true ↔ (a.1 < b.1 ∨ (a.1 = b.1 ∧ a.2 < b.2)) := by
  unfold pairLt
  simp only [Bool.or_eq_true, Bool.and_eq_true, decide_eq_true_eq]

theorem pairLt_or_le (a b : Int × Int) :
    pairLt a b = true ∨ pairLe b a := by
  rw [pairLt_iff]; unfold pairLe; omega

theorem pairLt_not_le {a b : Int × Int} (h : pairLt a b = true) : ¬ pairLe b a := by
  rw [pairLt_iff] at h; unfold pairLe; omega

theorem pairLe_of_lt {a b : Int × Int} (h : pairLt a b = true) : pairLe a b := by
  rw [pairLt_iff] at h; unfold pairLe; omega

theorem pairLt_false_iff (a b : Int × Int) :
    pairLt a b = false ↔ pairLe b a := by
  have h := pairLt_iff a b
  unfold pairLe
  rcases hab : pairLt a b with _ | _ <;> simp [hab] at h ⊢ <;> omega

/-- Strict lexicographic order on lists of pairs: Rust's derived `Ord` for
`Vec<(i32, i32)>` (element-wise comparison; a strict prefix is smaller). -/
def listLt : List (Int × Int) → List (Int × Int) → Bool
  | [], [] => false
  | [], _ :: _ => true
  | _ :: _, [] => false
  | a :: as, b :: bs =>
    if pairLt a b then true
    else if pairLt b a then false
    else listLt as bs

/-- `Ord::min` on `Vec<(i32, i32)>`:
`fn min(self, other) { if other < self { other } else { self } }`. -/
def vmin (a b : List (Int × Int)) : List (Int × Int) :=
  if listLt b a then b else a

theorem listLt_irrefl (a : List (Int × Int)) : listLt a a = false := by
  induction a with
  | nil => rfl
  | cons x xs ih =>
      unfold listLt
      have : pairLt x x = false := by rw [pairLt_false_iff]; right; exact ⟨rfl, le_refl _⟩
      simp [this, ih]

/-- Totality: of two distinct lists one is strictly smaller. -/
theorem listLt_total (a b : List (Int × Int)) :
    a = b ∨ listLt a b = true ∨ listLt b a = true := by
  induction a generalizing b with
  | nil => cases b with
    | nil => left; rfl
    | cons y ys => right; left; rfl
  | cons x xs ih =>
    cases b with
    | nil => right; right; rfl
    | cons y ys =>
      rcases hxy : pairLt x y with _ | _
      · rcases hyx : pairLt y x with _ | _
        · have hxe : x = y := by
            have h1 := (pairLt_false_iff x y).mp hxy
            have h2 := (pairLt_false_iff y x).mp hyx
            exact antisymm h2 h1
          subst hxe
          rcases ih ys with h | h | h
          · left; rw [h]
          · right; left; unfold listLt; simp [hxy, h]
          · right; right; unfold listLt; simp [hxy, h]
        · right; right; unfold listLt; simp [hyx]
      · right; left; unfold listLt; simp [hxy]

theorem listLt_asymm {a b : List (Int × Int)} (h : listLt a b = true) :
    listLt b a = false := by
  induction a generalizing b with
  | nil =>
    cases b with
    | nil => cases h
    | cons y ys => rfl
  | cons x xs ih =>
    cases b with
    | nil => cases h
    | cons y ys =>
      unfold listLt at h ⊢
      rcases hxy : pairLt x y with _ | _
      · rcases hyx : pairLt y x with _ | _
        · simp [hxy, hyx] at h ⊢
          exact ih h
        · simp [hxy, hyx] at h
      · have hyx : pairLt y x = false := by
          rw [pairLt_false_iff]; exact pairLe_of_lt hxy
        simp [hxy, hyx]

theorem listLt_trans {a b c : List (Int × Int)}
    (hab : listLt a b = true) (hbc : listLt b c = true) : listLt a c = true := by
  induction a generalizing b c with
  | nil =>
    cases c with
    | nil =>
      cases b with
      | nil => cases hab
      | cons y ys => cases hbc
    | cons z zs => rfl
  | cons x xs ih =>
    cases b with
    | nil => cases hab
    | cons y ys =>
      cases c with
      | nil => cases hbc
      | cons z zs =>
        unfold listLt at hab hbc ⊢
        rcases hxy : pairLt x y with _ | _ <;> rcases hyz : pairLt y z with _ | _
        · -- x = y (le both ways), y = z: recurse
          simp [hxy] at hab
          simp [hyz] at hbc
          rcases hyx : pairLt y x with _ | _
          · rcases hzy : pairLt z y with _ | _
            · simp [hyx] at hab
              simp [hzy] at hbc
              have hxey : x = y :=
                antisymm ((pairLt_false_iff y x).mp hyx) ((pairLt_false_iff x y).mp hxy)
              have hyez : y = z :=
                antisymm ((pairLt_false_iff z y).mp hzy) ((pairLt_false_iff y z).mp hyz)
              subst hxey; subst hyez
              simp [hxy]
              exact ih hab hbc
            · simp [hzy] at hbc
          · simp [hyx] at hab
        · -- x "=" y, y < z : x < z
          simp [hxy] at hab
          rcases hyx : pairLt y x with _ | _
          · have hxey : x = y :=
              antisymm ((pairLt_false_iff y x).mp hyx) ((pairLt_false_iff x y).mp hxy)
            subst hxey
            simp [hyz]
          · simp [hyx] at hab
        · -- x < y, y "=" z
          simp [hyz] at hbc
          rcases hzy : pairLt z y with _ | _
          · have hyez : y = z :=
              antisymm ((pairLt_false_iff z y).mp hzy) ((pairLt_false_iff y z).mp hyz)
            subst hyez
            simp [hxy]
          · simp [hzy] at hbc
        · -- x < y < z
          have hxz : pairLt x z = true := by
            rw [pairLt_iff] at hxy hyz ⊢
            omega
          simp [hxz]

/-- Non-strict order on lists, as a `Prop`. -/
def listLe (a b : List (Int × Int)) : Prop := listLt b a = false

theorem listLe_refl (a : List (Int × Int)) : listLe a a := listLt_irrefl a

theorem listLe_total (a b : List (Int × Int)) : listLe a b ∨ listLe b a := by
  rcases listLt_total a b with h | h | h
  · left; rw [h]; exact listLe_refl b
  · left; exact listLt_asymm h
  · right; exact listLt_asymm h

theorem listLe_antisymm {a b : List (Int × Int)} (hab : listLe a b) (hba : listLe b a) :
    a = b := by
  rcases listLt_total a b with h | h | h
  · exact h
  · exact absurd h (by simpa [listLe] using hba)
  · exact absurd h (by simpa [listLe] using hab)

theorem listLe_trans {a b c : List (Int × Int)} (hab : listLe a b) (hbc : listLe b c) :
    listLe a c := by
  unfold listLe at *
  rcases h : listLt c a with _ | _
  · rfl
  · rcases listLt_total a b with he | hl | hl
    · subst he; rw [hbc] at h; cases h
    · have := listLt_trans h hl
      rw [hbc] at this; cases this
    · rw [hab] at hl; cases hl

theorem vmin_le_left (a b : List (Int × Int)) : listLe (vmin a b) a := by
  unfold vmin
  rcases h : listLt b a with _ | _
  · simp [h]; exact listLe_refl a
  · simp [h]; exact listLt_asymm h

theorem vmin_le_right (a b : List (Int × Int)) : listLe (vmin a b) b := by
  unfold vmin
  rcases h : listLt b a with _ | _
  · simp [h]; exact h
  · simp [h]; exact listLe_refl b

theorem vmin_eq_or (a b : List (Int × Int)) : vmin a b = a ∨ vmin a b = b := by
  unfold vmin
  rcases h : listLt b a with _ | _
  · left; simp [h]
  · right; simp [h]

/-! ### Minimum / maximum folds over coordinate lists -/

/-- Minimum of the first components of a nonempty list (`0` for `[]`).
Models the Rust fold starting from `i32::MAX`. -/
def foldMinFst : List (Int × Int) → Int
  | [] => 0
  | p :: r => r.foldl (fun m q => min m q.1) p.1

/-- Minimum of the second components of a nonempty list (`0` for `[]`).
Models the Rust fold starting from `i32::MAX`. -/
def foldMinSnd : List (Int × Int) → Int
  | [] => 0
  | p :: r => r.foldl (fun m q => min m q.2) p.2

/-- The `ymax` fold of `flip_block` / `rotate_block`: maximum of the first
components, starting from `0` exactly as in the source. -/
def foldMax0 (l : List (Int × Int)) : Int :=
  l.foldl (fun m q => max m q.1) 0

theorem foldl_min_le_init (f : Int × Int → Int) (l : List (Int × Int)) (a : Int) :
    l.foldl (fun m q => min m (f q)) a ≤ a := by
  induction l generalizing a with
  | nil => exact le_refl a
  | cons x xs ih => exact le_trans (ih (min a (f x))) (min_le_left _ _)

theorem foldl_min_le_mem (f : Int × Int → Int) (l : List (Int × Int)) (a : Int)
    {p : Int × Int} (hp : p ∈ l) :
    l.foldl (fun m q => min m (f q)) a ≤ f p := by
  induction l generalizing a with
  | nil => cases hp
  | cons x xs ih =>
    rcases List.mem_cons.mp hp with h | h
    · subst h
      exact le_trans (foldl_min_le_init f xs (min a (f p))) (min_le_right _ _)
    · exact ih (min a (f x)) h

theorem foldl_min_mem (f : Int × Int → Int) (l : List (Int × Int)) (a : Int) :
    l.foldl (fun m q => min m (f q)) a = a ∨
      ∃ p ∈ l, l.foldl (fun m q => min m (f q)) a = f p := by
  induction l generalizing a with
  | nil => left; rfl
  | cons x xs ih =>
    rcases ih (min a (f x)) with h | ⟨p, hp, h⟩
    · rcases min_choice a (f x) with hm | hm
      · left; simp only [List.foldl_cons]; rw [h, hm]
      · right; exact ⟨x, List.mem_cons_self x xs, by simp only [List.foldl_cons]; rw [h, hm]⟩
    · right; exact ⟨p, List.mem_cons_of_mem x hp, by simpa using h⟩

theorem foldMinFst_le {l : List (Int × Int)} {p : Int × Int} (hp : p ∈ l) :
    foldMinFst l ≤ p.1 := by
  cases l with
  | nil => cases hp
  | cons x xs =>
    unfold foldMinFst
    rcases List.mem_cons.mp hp with h | h
    · subst h; exact foldl_min_le_init (fun q => q.1) xs p.1
    · exact foldl_min_le_mem (fun q => q.1) xs x.1 h

theorem foldMinFst_mem {l : List (Int × Int)} (hl : l ≠ []) :
    ∃ p ∈ l, foldMinFst l = p.1 := by
  cases l with
  | nil => exact absurd rfl hl
  | cons x xs =>
    unfold foldMinFst
    rcases foldl_min_mem (fun q => q.1) xs x.1 with h | ⟨p, hp, h⟩
    · exact ⟨x, List.mem_cons_self x xs, h⟩
    · exact ⟨p, List.mem_cons_of_mem x hp, h⟩

theorem foldMinSnd_le {l : List (Int × Int)} {p : Int × Int} (hp : p ∈ l) :
    foldMinSnd l ≤ p.2 := by
  cases l with
  | nil => cases hp
  | cons x xs =>
    unfold foldMinSnd
    rcases List.mem_cons.mp hp with h | h
    · subst h; exact foldl_min_le_init (fun q => q.2) xs p.2
    · exact foldl_min_le_mem (fun q => q.2) xs x.2 h

theorem foldMinSnd_mem {l : List (Int × Int)} (hl : l ≠ []) :
    ∃ p ∈ l, foldMinSnd l = p.2 := by
  cases l with
  | nil => exact absurd rfl hl
  | cons x xs =>
    unfold foldMinSnd
    rcases foldl_min_mem (fun q => q.2) xs x.2 with h | ⟨p, hp, h⟩
    · exact ⟨x, List.mem_cons_self x xs, h⟩
    · exact ⟨p, List.mem_cons_of_mem x hp, h⟩

theorem foldl_max_ge_init (l : List (Int × Int)) (a : Int) :
    a ≤ l.foldl (fun m q => max m q.1) a := by
  induction l generalizing a with
  | nil => exact le_refl a
  | cons x xs ih => exact le_trans (le_max_left _ _) (ih (max a x.1))

theorem foldl_max_ge_mem (l : List (Int × Int)) (a : Int)
    {p : Int × Int} (hp : p ∈ l) :
    p.1 ≤ l.foldl (fun m q => max m q.1) a := by
  induction l generalizing a with
  | nil => cases hp
  | cons x xs ih =>
    rcases List.mem_cons.mp hp with h | h
    · subst h
      exact le_trans (le_max_right _ _) (foldl_max_ge_init xs (max a p.1))
    · exact ih (max a x.1) h

theorem foldl_max_mem (l : List (Int × Int)) (a : Int) :
    l.foldl (fun m q => max m q.1) a = a ∨
      ∃ p ∈ l, l.foldl (fun m q => max m q.1) a = p.1 := by
  induction l generalizing a with
  | nil => left; rfl
  | cons x xs ih =>
    rcases ih (max a x.1) with h | ⟨p, hp, h⟩
    · rcases max_choice a x.1 with hm | hm
      · left; simp only [List.foldl_cons]; rw [h, hm]
      · right; exact ⟨x, List.mem_cons_self x xs, by simp only [List.foldl_cons]; rw [h, hm]⟩
    · right; exact ⟨p, List.mem_cons_of_mem x hp, by simpa using h⟩

theorem foldMax0_ge {l : List (Int × Int)} {p : Int × Int} (hp : p ∈ l) :
    p.1 ≤ foldMax0 l :=
  foldl_max_ge_mem l 0 hp

theorem foldMax0_nonneg (l : List (Int × Int)) : 0 ≤ foldMax0 l :=
  foldl_max_ge_init l 0

/-- If some first component is `≥ 0`, the `foldMax0` of the list is attained
by an element (the `0` initial accumulator does not win). -/
theorem foldMax0_mem {l : List (Int × Int)} {p0 : Int × Int} (hp0 : p0 ∈ l)
    (h0 : 0 ≤ p0.1) : ∃ p ∈ l, foldMax0 l = p.1 := by
  rcases foldl_max_mem l 0 with h | h
  · refine ⟨p0, hp0, le_antisymm ?_ (foldMax0_ge hp0)⟩
    unfold foldMax0; rw [h]
    exact h0
  · exact h

/-! ### Sorting: `Vec::sort` on `Vec<(i32, i32)>` -/

/-- `Vec::sort` for coordinate vectors (ascending in the derived tuple
order). -/
def sortPairs (l : List (Int × Int)) : List (Int × Int) :=
  l.insertionSort pairLe

theorem sortPairs_perm (l : List (Int × Int)) : (sortPairs l).Perm l :=
  List.perm_insertionSort pairLe l

theorem sortPairs_sorted (l : List (Int × Int)) : List.Sorted pairLe (sortPairs l) :=
  List.sorted_insertionSort pairLe l

/-- Sorting is invariant under permutation of the input. -/
theorem sortPairs_eq_of_perm {l₁ l₂ : List (Int × Int)} (h : l₁.Perm l₂) :
    sortPairs l₁ = sortPairs l₂ :=
  List.eq_of_perm_of_sorted
    (((sortPairs_perm l₁).trans h).trans (sortPairs_perm l₂).symm)
    (sortPairs_sorted l₁) (sortPairs_sorted l₂)

theorem sortPairs_sorted_eq {l : List (Int × Int)} (h : List.Sorted pairLe l) :
    sortPairs l = l :=
  List.Sorted.insertionSort_eq h

theorem sortPairs_idem (l : List (Int × Int)) : sortPairs (sortPairs l) = sortPairs l :=
  sortPairs_sorted_eq (sortPairs_sorted l)

theorem sortPairs_length (l : List (Int × Int)) : (sortPairs l).length = l.length :=
  (sortPairs_perm l).length_eq

theorem mem_sortPairs {l : List (Int × Int)} {p : Int × Int} :
    p ∈ sortPairs l ↔ p ∈ l :=
  (sortPairs_perm l).mem_iff

/-! ### Block operations (`adjust_bbox`, `flip_block`, `rotate_block`,
`normalize_block`) -/

/-- `adjust_bbox`: translate a block so that the minimal row and minimal
column both become `0`. -/
def adjust_bbox (block : List (Int × Int)) : List (Int × Int) :=
  let min_y := foldMinFst block
  let min_x := foldMinSnd block
  block.map (fun p => (p.1 - min_y, p.2 - min_x))

/-- `flip_block`: vertical mirror `(y, x) ↦ (ymax - y, x)` followed by a
sort. -/
def flip_block (block : List (Int × Int)) : List (Int × Int) :=
  let ymax := foldMax0 block
  sortPairs (block.map (fun p => (ymax - p.1, p.2)))

/-- `rotate_block`: quarter rotation `(y, x) ↦ (x, ymax - y)` followed by a
sort. -/
def rotate_block (block : List (Int × Int)) : List (Int × Int) :=
  let ymax := foldMax0 block
  sortPairs (block.map (fun p => (p.2, ymax - p.1)))

/-- `normalize_block`: translate to the origin, sort, and take the minimum
over the 8 images generated by repeated rotation and a flip of each
rotation.  The loop

    for i in 0..4 { ret = ret.min(block); ret = ret.min(flip_block(&block));
                    if i < 3 { block = rotate_block(&block); } }

is unrolled below. -/
def normalize_block (block : List (Int × Int)) : List (Int × Int) :=
  if block = [] then []
  else
    let b0 := sortPairs (adjust_bbox block)
    let ret0 := b0
    let ret1 := vmin (vmin ret0 b0) (flip_block b0)
    let b1 := rotate_block b0
    let ret2 := vmin (vmin ret1 b1) (flip_block b1)
    let b2 := rotate_block b1
    let ret3 := vmin (vmin ret2 b2) (flip_block b2)
    let b3 := rotate_block b2
    vmin (vmin ret3 b3) (flip_block b3)

example : normalize_block [(5, 3), (5, 4), (5, 5), (6, 5)] =
    [(0, 0), (0, 1), (0, 2), (1, 0)] := by decide

example : normalize_block [(0, 0), (1, 0), (1, 1), (1, 2)] =
    [(0, 0), (0, 1), (0, 2), (1, 0)] := by decide

example : normalize_block [(0, 0), (0, 1), (0, 2), (0, 3)] =
    normalize_block [(0, 0), (1, 0), (2, 0), (3, 0)] := by decide

/-! ### Characterizing `normalize_block` as the minimum over the 8 images -/

/-- Exact quarter rotation of the plane (no re-translation). -/
def rotT (p : Int × Int) : Int × Int := (p.2, -p.1)

/-- Exact vertical mirror of the plane (no re-translation). -/
def flipT (p : Int × Int) : Int × Int := (-p.1, p.2)

/-- Iterated rotation, applying the innermost rotation first. -/
def rotN : Nat → (Int × Int) → (Int × Int)
  | 0, p => p
  | Nat.succ k, p => rotN k (rotT p)

/-- One of the 8 square symmetries: `k` quarter rotations, then optionally
the mirror. -/
def applyG (f : Bool) (k : Nat) (p : Int × Int) : Int × Int :=
  if f then flipT (rotN k p) else rotN k p

/-- Translate to the origin and sort: the common preprocessing of
`normalize_block` and the result of each symmetric image. -/
def bboxSort (l : List (Int × Int)) : List (Int × Int) :=
  sortPairs (adjust_bbox l)

/-- The image of a block under one symmetry, renormalized. -/
def cand (l : List (Int × Int)) (f : Bool) (k : Nat) : List (Int × Int) :=
  bboxSort (l.map (applyG f k))

/-- The 8 candidate images generated by the loop of `normalize_block`, in
generation order. -/
def candList (l : List (Int × Int)) : List (List (Int × Int)) :=
  [cand l false 0, cand l true 0, cand l false 1, cand l true 1,
   cand l false 2, cand l true 2, cand l false 3, cand l true 3]

theorem rotN_four (p : Int × Int) : rotN 4 p = p := by
  cases p with
  | mk y x => simp [rotN, rotT]

theorem adjust_bbox_length (l : List (Int × Int)) :
    (adjust_bbox l).length = l.length := by
  unfold adjust_bbox
  exact List.length_map _ _

theorem bboxSort_length (l : List (Int × Int)) : (bboxSort l).length = l.length := by
  unfold bboxSort
  rw [sortPairs_length, adjust_bbox_length]

theorem bboxSort_eq_nil_iff (l : List (Int × Int)) : bboxSort l = [] ↔ l = [] := by
  constructor
  · intro h
    have := bboxSort_length l
    rw [h] at this
    exact List.length_eq_zero.mp this.symm
  · intro h; subst h; rfl

theorem cand_length (l : List (Int × Int)) (f : Bool) (k : Nat) :
    (cand l f k).length = l.length := by
  unfold cand
  rw [bboxSort_length, List.length_map]

/-- The minimum of the first coordinates of an `adjust_bbox` image is `0`. -/
theorem foldMinFst_adjust {l : List (Int × Int)} (hl : l ≠ []) :
    foldMinFst (adjust_bbox l) = 0 := by
  obtain ⟨p, hp, hpe⟩ := foldMinFst_mem hl
  have hmem : (p.1 - foldMinFst l, p.2 - foldMinSnd l) ∈ adjust_bbox l := by
    unfold adjust_bbox
    exact List.mem_map_of_mem _ hp
  apply le_antisymm
  · have := foldMinFst_le hmem
    simpa [hpe] using this
  · have hne : adjust_bbox l ≠ [] := by
      intro h
      have := adjust_bbox_length l
      rw [h] at this
      exact hl (List.length_eq_zero.mp this.symm)
    obtain ⟨q, hq, hqe⟩ := foldMinFst_mem hne
    unfold adjust_bbox at hq
    obtain ⟨r, hr, hre⟩ := List.mem_map.mp hq
    rw [hqe, ← hre]
    simp only
    have := foldMinFst_le hr
    omega

theorem foldMinSnd_adjust {l : List (Int × Int)} (hl : l ≠ []) :
    foldMinSnd (adjust_bbox l) = 0 := by
  obtain ⟨p, hp, hpe⟩ := foldMinSnd_mem hl
  have hmem : (p.1 - foldMinFst l, p.2 - foldMinSnd l) ∈ adjust_bbox l := by
    unfold adjust_bbox
    exact List.mem_map_of_mem _ hp
  apply le_antisymm
  · have := foldMinSnd_le hmem
    simpa [hpe] using this
  · have hne : adjust_bbox l ≠ [] := by
      intro h
      have := adjust_bbox_length l
      rw [h] at this
      exact hl (List.length_eq_zero.mp this.symm)
    obtain ⟨q, hq, hqe⟩ := foldMinSnd_mem hne
    unfold adjust_bbox at hq
    obtain ⟨r, hr, hre⟩ := List.mem_map.mp hq
    rw [hqe, ← hre]
    simp only
    have := foldMinSnd_le hr
    omega

/-- `adjust_bbox` is the identity on an already-normalized block. -/
theorem adjust_bbox_of_normalized {l : List (Int × Int)}
    (h1 : foldMinFst l = 0) (h2 : foldMinSnd l = 0) : adjust_bbox l = l := by
  unfold adjust_bbox
  rw [h1, h2]
  simp

theorem adjust_bbox_idem (l : List (Int × Int)) :
    adjust_bbox (adjust_bbox l) = adjust_bbox l := by
  rcases eq_or_ne l [] with h | h
  · subst h; rfl
  · exact adjust_bbox_of_normalized (foldMinFst_adjust h) (foldMinSnd_adjust h)

/-- The minimum folds only depend on the multiset of elements. -/
theorem foldMinFst_of_perm {l₁ l₂ : List (Int × Int)} (h : l₁.Perm l₂) :
    foldMinFst l₁ = foldMinFst l₂ := by
  rcases eq_or_ne l₁ [] with hl | hl
  · subst hl
    rw [h.nil_eq.symm]
  · have hl₂ : l₂ ≠ [] := by
      intro he; subst he
      exact hl h.eq_nil
    obtain ⟨p, hp, hpe⟩ := foldMinFst_mem hl
    obtain ⟨q, hq, hqe⟩ := foldMinFst_mem hl₂
    have h1 := foldMinFst_le (h.mem_iff.mpr hq)
    have h2 := foldMinFst_le (h.mem_iff.mp hp)
    omega

theorem foldMinSnd_of_perm {l₁ l₂ : List (Int × Int)} (h : l₁.Perm l₂) :
    foldMinSnd l₁ = foldMinSnd l₂ := by
  rcases eq_or_ne l₁ [] with hl | hl
  · subst hl
    rw [h.nil_eq.symm]
  · have hl₂ : l₂ ≠ [] := by
      intro he; subst he
      exact hl h.eq_nil
    obtain ⟨p, hp, hpe⟩ := foldMinSnd_mem hl
    obtain ⟨q, hq, hqe⟩ := foldMinSnd_mem hl₂
    have h1 := foldMinSnd_le (h.mem_iff.mpr hq)
    have h2 := foldMinSnd_le (h.mem_iff.mp hp)
    omega

theorem foldMax0_of_perm {l₁ l₂ : List (Int × Int)} (h : l₁.Perm l₂) :
    foldMax0 l₁ = foldMax0 l₂ := by
  unfold foldMax0
  have : RightCommutative (fun (m : Int) (q : Int × Int) => max m q.1) :=
    ⟨fun b a₁ a₂ => by rw [max_assoc, max_assoc, max_comm a₁.1 a₂.1]⟩
  exact h.foldl_eq 0

theorem adjust_bbox_perm {l₁ l₂ : List (Int × Int)} (h : l₁.Perm l₂) :
    (adjust_bbox l₁).Perm (adjust_bbox l₂) := by
  unfold adjust_bbox
  rw [foldMinFst_of_perm h, foldMinSnd_of_perm h]
  exact h.map _

/-- `bboxSort` only depends on the multiset of input coordinates. -/
theorem bboxSort_of_perm {l₁ l₂ : List (Int × Int)} (h : l₁.Perm l₂) :
    bboxSort l₁ = bboxSort l₂ :=
  sortPairs_eq_of_perm (adjust_bbox_perm h)

theorem bboxSort_idem (l : List (Int × Int)) : bboxSort (bboxSort l) = bboxSort l := by
  have h1 : bboxSort (bboxSort l) = bboxSort (adjust_bbox l) :=
    bboxSort_of_perm (sortPairs_perm (adjust_bbox l))
  rw [h1]
  unfold bboxSort
  rw [adjust_bbox_idem]

/-- True maximum of the first components of a nonempty list. -/
def maxFst : List (Int × Int) → Int
  | [] => 0
  | p :: r => r.foldl (fun m q => max m q.1) p.1

theorem maxFst_ge {l : List (Int × Int)} {p : Int × Int} (hp : p ∈ l) :
    p.1 ≤ maxFst l := by
  cases l with
  | nil => cases hp
  | cons x xs =>
    unfold maxFst
    rcases List.mem_cons.mp hp with h | h
    · subst h; exact foldl_max_ge_init xs p.1
    · exact foldl_max_ge_mem xs x.1 h

theorem maxFst_mem {l : List (Int × Int)} (hl : l ≠ []) :
    ∃ p ∈ l, maxFst l = p.1 := by
  cases l with
  | nil => exact absurd rfl hl
  | cons x xs =>
    unfold maxFst
    rcases foldl_max_mem xs x.1 with h | ⟨p, hp, h⟩
    · exact ⟨x, List.mem_cons_self x xs, h⟩
    · exact ⟨p, List.mem_cons_of_mem x hp, h⟩

theorem foldMinFst_unique {l : List (Int × Int)} {X : Int} (hl : l ≠ [])
    (hle : ∀ p ∈ l, X ≤ p.1) (hmem : ∃ p ∈ l, X = p.1) : foldMinFst l = X := by
  obtain ⟨p, hp, hpe⟩ := foldMinFst_mem hl
  obtain ⟨q, hq, hqe⟩ := hmem
  have h1 := foldMinFst_le hq
  have h2 := hle p hp
  omega

theorem foldMinSnd_unique {l : List (Int × Int)} {X : Int} (hl : l ≠ [])
    (hle : ∀ p ∈ l, X ≤ p.2) (hmem : ∃ p ∈ l, X = p.2) : foldMinSnd l = X := by
  obtain ⟨p, hp, hpe⟩ := foldMinSnd_mem hl
  obtain ⟨q, hq, hqe⟩ := hmem
  have h1 := foldMinSnd_le hq
  have h2 := hle p hp
  omega

/-- The `0`-seeded maximum fold of an `adjust_bbox` image is the width of
the block in rows: true maximum minus true minimum. -/
theorem foldMax0_adjust {l : List (Int × Int)} (hl : l ≠ []) :
    foldMax0 (adjust_bbox l) = maxFst l - foldMinFst l := by
  obtain ⟨pM, hpM, hpMe⟩ := maxFst_mem hl
  obtain ⟨pm, hpm, hpme⟩ := foldMinFst_mem hl
  have hmemM : (pM.1 - foldMinFst l, pM.2 - foldMinSnd l) ∈ adjust_bbox l :=
    List.mem_map_of_mem _ hpM
  apply le_antisymm
  · -- every element of the image, and 0, are at most maxFst - min
    rcases foldl_max_mem (adjust_bbox l) 0 with h | ⟨q, hq, h⟩
    · unfold foldMax0
      rw [h]
      have := maxFst_ge hpm
      omega
    · unfold foldMax0
      rw [h]
      obtain ⟨r, hr, hre⟩ := List.mem_map.mp hq
      have := maxFst_ge hr
      rw [← hre]
      simp only
      omega
  · have := foldMax0_ge hmemM
    simp only at this
    omega

theorem flip_block_bboxSort {l : List (Int × Int)} (hl : l ≠ []) :
    flip_block (bboxSort l) = bboxSort (l.map flipT) := by
  have hperm : (bboxSort l).Perm (adjust_bbox l) := sortPairs_perm _
  have hM : foldMax0 (bboxSort l) = maxFst l - foldMinFst l := by
    rw [foldMax0_of_perm hperm]
    exact foldMax0_adjust hl
  have hmapne : l.map flipT ≠ [] := by
    intro h; exact hl (List.map_eq_nil_iff.mp h)
  obtain ⟨pM, hpM, hpMe⟩ := maxFst_mem hl
  obtain ⟨pm2, hpm2, hpm2e⟩ := foldMinSnd_mem hl
  have hm1 : foldMinFst (l.map flipT) = -(maxFst l) := by
    apply foldMinFst_unique hmapne
    · intro q hq
      obtain ⟨p, hp, hpe⟩ := List.mem_map.mp hq
      rw [← hpe]
      have := maxFst_ge hp
      unfold flipT
      simp only
      omega
    · exact ⟨flipT pM, List.mem_map_of_mem _ hpM, by unfold flipT; simp only; omega⟩
  have hm2 : foldMinSnd (l.map flipT) = foldMinSnd l := by
    apply foldMinSnd_unique hmapne
    · intro q hq
      obtain ⟨p, hp, hpe⟩ := List.mem_map.mp hq
      rw [← hpe]
      simpa [flipT] using foldMinSnd_le hp
    · exact ⟨flipT pm2, List.mem_map_of_mem _ hpm2, by unfold flipT; simp only; omega⟩
  unfold flip_block
  rw [hM]
  have hs : sortPairs
      ((bboxSort l).map (fun p => (maxFst l - foldMinFst l - p.1, p.2))) =
      sortPairs ((adjust_bbox l).map (fun p => (maxFst l - foldMinFst l - p.1, p.2))) :=
    sortPairs_eq_of_perm (hperm.map _)
  rw [hs]
  unfold bboxSort adjust_bbox
  rw [hm1, hm2, List.map_map, List.map_map]
  congr 1
  apply List.map_congr_left
  intro p hp
  unfold flipT
  simp only [Function.comp_apply, Prod.mk.injEq, and_true, true_and]
  omega

theorem rotate_block_bboxSort {l : List (Int × Int)} (hl : l ≠ []) :
    rotate_block (bboxSort l) = bboxSort (l.map rotT) := by
  have hperm : (bboxSort l).Perm (adjust_bbox l) := sortPairs_perm _
  have hM : foldMax0 (bboxSort l) = maxFst l - foldMinFst l := by
    rw [foldMax0_of_perm hperm]
    exact foldMax0_adjust hl
  have hmapne : l.map rotT ≠ [] := by
    intro h; exact hl (List.map_eq_nil_iff.mp h)
  obtain ⟨pM, hpM, hpMe⟩ := maxFst_mem hl
  obtain ⟨pm2, hpm2, hpm2e⟩ := foldMinSnd_mem hl
  have hm1 : foldMinFst (l.map rotT) = foldMinSnd l := by
    apply foldMinFst_unique hmapne
    · intro q hq
      obtain ⟨p, hp, hpe⟩ := List.mem_map.mp hq
      rw [← hpe]
      simpa [rotT] using foldMinSnd_le hp
    · exact ⟨rotT pm2, List.mem_map_of_mem _ hpm2, by unfold rotT; simp only; omega⟩
  have hm2 : foldMinSnd (l.map rotT) = -(maxFst l) := by
    apply foldMinSnd_unique hmapne
    · intro q hq
      obtain ⟨p, hp, hpe⟩ := List.mem_map.mp hq
      rw [← hpe]
      have := maxFst_ge hp
      unfold rotT
      simp only
      omega
    · exact ⟨rotT pM, List.mem_map_of_mem _ hpM, by unfold rotT; simp only; omega⟩
  unfold rotate_block
  rw [hM]
  have hs : sortPairs
      ((bboxSort l).map (fun p => (p.2, maxFst l - foldMinFst l - p.1))) =
      sortPairs ((adjust_bbox l).map (fun p => (p.2, maxFst l - foldMinFst l - p.1))) :=
    sortPairs_eq_of_perm (hperm.map _)
  rw [hs]
  unfold bboxSort adjust_bbox
  rw [hm1, hm2, List.map_map, List.map_map]
  congr 1
  apply List.map_congr_left
  intro p hp
  unfold rotT
  simp only [Function.comp_apply, Prod.mk.injEq, and_true, true_and]
  omega

/-! ### The minimum fold and its permutation invariance -/

theorem foldl_vmin_mem (a : List (Int × Int)) (L : List (List (Int × Int))) :
    List.foldl vmin a L = a ∨ List.foldl vmin a L ∈ L := by
  induction L generalizing a with
  | nil => left; rfl
  | cons x xs ih =>
    rcases ih (vmin a x) with h | h
    · rcases vmin_eq_or a x with h2 | h2
      · left; simp only [List.foldl_cons]; rw [h, h2]
      · right
        simp only [List.foldl_cons]
        rw [h, h2]
        exact List.mem_cons_self x xs
    · right
      simp only [List.foldl_cons]
      exact List.mem_cons_of_mem x h

theorem foldl_vmin_le_init (a : List (Int × Int)) (L : List (List (Int × Int))) :
    listLe (List.foldl vmin a L) a := by
  induction L generalizing a with
  | nil => exact listLe_refl a
  | cons x xs ih =>
    simp only [List.foldl_cons]
    exact listLe_trans (ih (vmin a x)) (vmin_le_left a x)

theorem foldl_vmin_le_mem (a : List (Int × Int)) {L : List (List (Int × Int))}
    {b : List (Int × Int)} (hb : b ∈ L) :
    listLe (List.foldl vmin a L) b := by
  induction L generalizing a with
  | nil => cases hb
  | cons x xs ih =>
    simp only [List.foldl_cons]
    rcases List.mem_cons.mp hb with h | h
    · subst h
      exact listLe_trans (foldl_vmin_le_init (vmin a b) xs) (vmin_le_right a b)
    · exact ih (vmin a x) h

/-- Two minimum folds over collections with the same members agree. -/
theorem foldl_vmin_eq_of_mem_equiv {a₁ a₂ : List (Int × Int)}
    {L₁ L₂ : List (List (Int × Int))}
    (h : ∀ x, (x = a₁ ∨ x ∈ L₁) ↔ (x = a₂ ∨ x ∈ L₂)) :
    List.foldl vmin a₁ L₁ = List.foldl vmin a₂ L₂ := by
  have hm₁ : List.foldl vmin a₁ L₁ = a₂ ∨ List.foldl vmin a₁ L₁ ∈ L₂ :=
    (h _).mp (foldl_vmin_mem a₁ L₁)
  have hm₂ : List.foldl vmin a₂ L₂ = a₁ ∨ List.foldl vmin a₂ L₂ ∈ L₁ :=
    (h _).mpr (foldl_vmin_mem a₂ L₂)
  have h₁ : listLe (List.foldl vmin a₂ L₂) (List.foldl vmin a₁ L₁) := by
    rcases hm₁ with he | he
    · rw [he]; exact foldl_vmin_le_init a₂ L₂
    · exact foldl_vmin_le_mem a₂ he
  have h₂ : listLe (List.foldl vmin a₁ L₁) (List.foldl vmin a₂ L₂) := by
    rcases hm₂ with he | he
    · rw [he]; exact foldl_vmin_le_init a₁ L₁
    · exact foldl_vmin_le_mem a₁ he
  exact listLe_antisymm h₂ h₁

/-! ### Identifying the loop images with the 8 candidates -/

theorem cand_false_zero (l : List (Int × Int)) : cand l false 0 = bboxSort l := by
  unfold cand
  congr 1
  exact List.map_id' l

theorem cand_true_zero (l : List (Int × Int)) :
    cand l true 0 = bboxSort (l.map flipT) := by
  unfold cand
  congr 1

theorem cand_false_one (l : List (Int × Int)) :
    cand l false 1 = bboxSort (l.map rotT) := by
  unfold cand
  congr 1

theorem cand_true_one (l : List (Int × Int)) :
    cand l true 1 = bboxSort ((l.map rotT).map flipT) := by
  unfold cand
  rw [List.map_map]
  congr 1

theorem cand_false_two (l : List (Int × Int)) :
    cand l false 2 = bboxSort ((l.map rotT).map rotT) := by
  unfold cand
  rw [List.map_map]
  congr 1

theorem cand_true_two (l : List (Int × Int)) :
    cand l true 2 = bboxSort (((l.map rotT).map rotT).map flipT) := by
  unfold cand
  rw [List.map_map, List.map_map]
  congr 1

theorem cand_false_three (l : List (Int × Int)) :
    cand l false 3 = bboxSort (((l.map rotT).map rotT).map rotT) := by
  unfold cand
  rw [List.map_map, List.map_map]
  congr 1

theorem cand_true_three (l : List (Int × Int)) :
    cand l true 3 = bboxSort ((((l.map rotT).map rotT).map rotT).map flipT) := by
  unfold cand
  rw [List.map_map, List.map_map, List.map_map]
  congr 1

/-- `normalize_block` computes the minimum fold over the 8 candidate
images. -/
theorem normalize_block_eq_fold {l : List (Int × Int)} (hl : l ≠ []) :
    normalize_block l = List.foldl vmin (cand l false 0) (candList l) := by
  have hl1 : l.map rotT ≠ [] := fun h => hl (List.map_eq_nil_iff.mp h)
  have hl2 : (l.map rotT).map rotT ≠ [] := fun h => hl1 (List.map_eq_nil_iff.mp h)
  have hb1 : rotate_block (bboxSort l) = bboxSort (l.map rotT) :=
    rotate_block_bboxSort hl
  have hb2 : rotate_block (bboxSort (l.map rotT)) =
      bboxSort ((l.map rotT).map rotT) := rotate_block_bboxSort hl1
  have hb3 : rotate_block (bboxSort ((l.map rotT).map rotT)) =
      bboxSort (((l.map rotT).map rotT).map rotT) := rotate_block_bboxSort hl2
  have hf0 : flip_block (bboxSort l) = bboxSort (l.map flipT) :=
    flip_block_bboxSort hl
  have hf1 : flip_block (bboxSort (l.map rotT)) =
      bboxSort ((l.map rotT).map flipT) := flip_block_bboxSort hl1
  have hf2 : flip_block (bboxSort ((l.map rotT).map rotT)) =
      bboxSort (((l.map rotT).map rotT).map flipT) := flip_block_bboxSort hl2
  have hf3 : flip_block (bboxSort (((l.map rotT).map rotT).map rotT)) =
      bboxSort ((((l.map rotT).map rotT).map rotT).map flipT) :=
    flip_block_bboxSort (fun h => hl2 (List.map_eq_nil_iff.mp h))
  unfold normalize_block
  rw [if_neg hl]
  simp only [candList, List.foldl_cons, List.foldl_nil]
  rw [cand_false_zero, cand_true_zero, cand_false_one, cand_true_one,
    cand_false_two, cand_true_two, cand_false_three, cand_true_three]
  rw [show sortPairs (adjust_bbox l) = bboxSort l from rfl]
  rw [hb1, hf0, hf1, hb2, hf2, hb3, hf3]

/-! ### Symmetry invariance of `normalize_block` -/

theorem cand_map_rot (l : List (Int × Int)) (f : Bool) (k : Nat) :
    cand (l.map rotT) f k = cand l f (k + 1) := by
  unfold cand
  rw [List.map_map]
  congr 1

theorem cand_four (l : List (Int × Int)) (f : Bool) : cand l f 4 = cand l f 0 := by
  unfold cand
  congr 1
  apply List.map_congr_left
  intro p _
  cases f <;> simp [applyG, rotN_four] <;> rfl

theorem normalize_block_map_rot (l : List (Int × Int)) :
    normalize_block (l.map rotT) = normalize_block l := by
  rcases eq_or_ne l [] with h | h
  · subst h; rfl
  · have hl1 : l.map rotT ≠ [] := fun he => h (List.map_eq_nil_iff.mp he)
    rw [normalize_block_eq_fold hl1, normalize_block_eq_fold h]
    apply foldl_vmin_eq_of_mem_equiv
    intro x
    simp [candList, cand_map_rot, cand_four]
    tauto

/-- Pointwise composition facts for the mirror entries: conjugating each
of the 8 symmetries by the mirror is again one of the 8. -/
theorem cand_map_flip_false_zero (l : List (Int × Int)) :
    cand (l.map flipT) false 0 = cand l true 0 := by
  unfold cand
  rw [List.map_map]
  apply congrArg
  apply List.map_congr_left
  intro p _
  cases p with
  | mk y x => simp [applyG, rotN, rotT, flipT]

theorem cand_map_flip_true_zero (l : List (Int × Int)) :
    cand (l.map flipT) true 0 = cand l false 0 := by
  unfold cand
  rw [List.map_map]
  apply congrArg
  apply List.map_congr_left
  intro p _
  cases p with
  | mk y x => simp [applyG, rotN, rotT, flipT]

theorem cand_map_flip_false_one (l : List (Int × Int)) :
    cand (l.map flipT) false 1 = cand l true 3 := by
  unfold cand
  rw [List.map_map]
  apply congrArg
  apply List.map_congr_left
  intro p _
  cases p with
  | mk y x => simp [applyG, rotN, rotT, flipT]

theorem cand_map_flip_true_one (l : List (Int × Int)) :
    cand (l.map flipT) true 1 = cand l false 3 := by
  unfold cand
  rw [List.map_map]
  apply congrArg
  apply List.map_congr_left
  intro p _
  cases p with
  | mk y x => simp [applyG, rotN, rotT, flipT]

theorem cand_map_flip_false_two (l : List (Int × Int)) :
    cand (l.map flipT) false 2 = cand l true 2 := by
  unfold cand
  rw [List.map_map]
  apply congrArg
  apply List.map_congr_left
  intro p _
  cases p with
  | mk y x => simp [applyG, rotN, rotT, flipT]

theorem cand_map_flip_true_two (l : List (Int × Int)) :
    cand (l.map flipT) true 2 = cand l false 2 := by
  unfold cand
  rw [List.map_map]
  apply congrArg
  apply List.map_congr_left
  intro p _
  cases p with
  | mk y x => simp [applyG, rotN, rotT, flipT]

theorem cand_map_flip_false_three (l : List (Int × Int)) :
    cand (l.map flipT) false 3 = cand l true 1 := by
  unfold cand
  rw [List.map_map]
  apply congrArg
  apply List.map_congr_left
  intro p _
  cases p with
  | mk y x => simp [applyG, rotN, rotT, flipT]

theorem cand_map_flip_true_three (l : List (Int × Int)) :
    cand (l.map flipT) true 3 = cand l false 1 := by
  unfold cand
  rw [List.map_map]
  apply congrArg
  apply List.map_congr_left
  intro p _
  cases p with
  | mk y x => simp [applyG, rotN, rotT, flipT]

theorem normalize_block_map_flip (l : List (Int × Int)) :
    normalize_block (l.map flipT) = normalize_block l := by
  rcases eq_or_ne l [] with h | h
  · subst h; rfl
  · have hl1 : l.map flipT ≠ [] := fun he => h (List.map_eq_nil_iff.mp he)
    rw [normalize_block_eq_fold hl1, normalize_block_eq_fold h]
    apply foldl_vmin_eq_of_mem_equiv
    intro x
    simp [candList, cand_map_flip_false_zero, cand_map_flip_true_zero,
      cand_map_flip_false_one, cand_map_flip_true_one,
      cand_map_flip_false_two, cand_map_flip_true_two,
      cand_map_flip_false_three, cand_map_flip_true_three]
    tauto

/-- Invariance of `normalize_block` under every square symmetry. -/
theorem normalize_block_map_applyG (f : Bool) (k : Nat) (l : List (Int × Int)) :
    normalize_block (l.map (applyG f k)) = normalize_block l := by
  induction k generalizing l with
  | zero =>
    cases f with
    | false =>
      rw [show l.map (applyG false 0) = l from List.map_id' l]
    | true =>
      rw [show l.map (applyG true 0) = l.map flipT from rfl]
      exact normalize_block_map_flip l
  | succ k ih =>
    have hdec : l.map (applyG f (k + 1)) = (l.map rotT).map (applyG f k) := by
      rw [List.map_map]
      apply List.map_congr_left
      intro p _
      rfl
    rw [hdec, ih, normalize_block_map_rot]

/-- `normalize_block` only reads its input through `bboxSort`. -/
theorem normalize_block_bboxSort (m : List (Int × Int)) :
    normalize_block (bboxSort m) = normalize_block m := by
  rcases eq_or_ne m [] with h | h
  · subst h; rfl
  · have h1 : bboxSort m ≠ [] := fun he => h ((bboxSort_eq_nil_iff m).mp he)
    unfold normalize_block
    rw [if_neg h1, if_neg h]
    rw [show sortPairs (adjust_bbox (bboxSort m)) = sortPairs (adjust_bbox m) from
      bboxSort_idem m]

/-- `normalize_block` is invariant under permutations of the input list. -/
theorem normalize_block_of_perm {l₁ l₂ : List (Int × Int)} (h : l₁.Perm l₂) :
    normalize_block l₁ = normalize_block l₂ := by
  rcases eq_or_ne l₁ [] with he | he
  · subst he
    rw [h.nil_eq.symm]
  · have he₂ : l₂ ≠ [] := fun h2 => he (by subst h2; exact h.eq_nil)
    unfold normalize_block
    rw [if_neg he, if_neg he₂]
    rw [show sortPairs (adjust_bbox l₁) = sortPairs (adjust_bbox l₂) from
      sortPairs_eq_of_perm (adjust_bbox_perm h)]

/-- The result of `normalize_block` on a nonempty block is one of its own
8 candidate images. -/
theorem normalize_block_mem_cand {l : List (Int × Int)} (hl : l ≠ []) :
    ∃ f k, normalize_block l = cand l f k := by
  rw [normalize_block_eq_fold hl]
  rcases foldl_vmin_mem (cand l false 0) (candList l) with h | h
  · exact ⟨false, 0, h⟩
  · simp only [candList, List.mem_cons, List.not_mem_nil, or_false] at h
    rcases h with h | h | h | h | h | h | h | h
    exacts [⟨false, 0, h⟩, ⟨true, 0, h⟩, ⟨false, 1, h⟩, ⟨true, 1, h⟩,
      ⟨false, 2, h⟩, ⟨true, 2, h⟩, ⟨false, 3, h⟩, ⟨true, 3, h⟩]

theorem normalize_block_length (l : List (Int × Int)) :
    (normalize_block l).length = l.length := by
  rcases eq_or_ne l [] with h | h
  · subst h; rfl
  · obtain ⟨f, k, hfk⟩ := normalize_block_mem_cand h
    rw [hfk, cand_length]

theorem normalize_block_ne_nil {l : List (Int × Int)} (hl : l ≠ []) :
    normalize_block l ≠ [] := by
  intro h
  have := normalize_block_length l
  rw [h] at this
  exact hl (List.length_eq_zero.mp this.symm)

/-- C2: for every finite set `S` of grid coordinates (given as an arbitrary
coordinate list) and each `T` among the 8 square-lattice symmetries —
`applyG f k` for `f : Bool` (mirror or not) and `k : Fin 4` (quarter
rotations), i.e. the identity, the 3 nontrivial rotations and the mirror
of each — `normalize_block` applied to `T(S)` equals `normalize_block`
applied to `S`. -/
theorem anymino_c2_canonicalization_invariance
    (l : List (Int × Int)) (f : Bool) (k : Fin 4) :
    normalize_block (l.map (applyG f k.val)) = normalize_block l :=
  normalize_block_map_applyG f k.val l

/-- C8: `normalize_block` is idempotent — applying it to its own output
(reinterpreted as the coordinate set of the canonical form) yields the same
result as applying it once. -/
theorem anymino_c8_normalize_idempotent (l : List (Int × Int)) :
    normalize_block (normalize_block l) = normalize_block l := by
  rcases eq_or_ne l [] with h | h
  · subst h; rfl
  · obtain ⟨f, k, hfk⟩ := normalize_block_mem_cand h
    conv_lhs => rw [hfk]
    rw [show cand l f k = bboxSort (l.map (applyG f k)) from rfl]
    rw [normalize_block_bboxSort, normalize_block_map_applyG]

/-! ### The propagator state (`AnyminoConstraint`) and its operations -/

/-- Per-cell state of the board. -/
inductive CellState where
  | Black
  | White
  | Undecided
deriving DecidableEq, Repr

/-- The propagator state.  The decision stack is kept most-recent-first
(the Rust code pushes to and pops from the end of a `Vec`; here the head of
the list is the top of the stack). -/
structure AnyminoConstraint where
  height : Nat
  width : Nat
  rooms : List (List (Nat × Nat))
  room_id_map : List (List Nat)
  board : List (List CellState)
  decision_stack : List (Nat × Nat)
deriving DecidableEq, Repr

/-- `AnyminoConstraint::new`. -/
def AnyminoConstraint.new (height width : Nat) (rooms : List (List (Nat × Nat)))
    (room_id_map : List (List Nat)) : AnyminoConstraint :=
  { height := height
    width := width
    rooms := rooms
    room_id_map := room_id_map
    board := List.replicate height (List.replicate width CellState.Undecided)
    decision_stack := [] }

/-- Read `board[y][x]` (total model of the in-range indexing the code
performs only after a bounds check). -/
def boardAt (b : List (List CellState)) (y x : Nat) : CellState :=
  (b.getD y []).getD x CellState.Undecided

/-- Read `room_id_map[y][x]`. -/
def roomAt (m : List (List Nat)) (y x : Nat) : Nat :=
  (m.getD y []).getD x 0

/-- Write `board[y][x] = v` (no-op out of range, like the total `getD`
model; the code only writes in range). -/
def setBoard (b : List (List CellState)) (y x : Nat) (v : CellState) :
    List (List CellState) :=
  b.set y ((b.getD y []).set x v)

/-- `initialize_sat`: the `assert_eq!(num_inputs, h * w)` is modelled by
returning `none` (fatal setup error) on mismatch; on success the state is
returned as is — the body of the Rust function performs no other action. -/
def initialize_sat (num_inputs : Nat) (c : AnyminoConstraint) :
    Option AnyminoConstraint :=
  if num_inputs = c.height * c.width then some c else none

/-- `notify`. -/
def notify (index : Nat) (value : Bool) (c : AnyminoConstraint) :
    AnyminoConstraint :=
  let y := index / c.width
  let x := index % c.width
  { c with
    board := setBoard c.board y x
      (if value then CellState.Black else CellState.White)
    decision_stack := (y, x) :: c.decision_stack }

/-- `undo`: `none` models the panic of `pop().unwrap()` on an empty
stack. -/
def undo (c : AnyminoConstraint) : Option AnyminoConstraint :=
  match c.decision_stack with
  | [] => none
  | (y, x) :: rest =>
    some { c with
      board := setBoard c.board y x CellState.Undecided
      decision_stack := rest }

/-- `HashSet::insert`: contents as an insertion-ordered duplicate-free
list. -/
def hsInsert {α : Type} [DecidableEq α] (l : List α) (a : α) : List α :=
  if a ∈ l then l else l ++ [a]

/-- The neighbor offsets scanned, in source order. -/
def dirs : List (Int × Int) := [(0, 1), (1, 0), (0, -1), (-1, 0)]

/-- `black_cells[room_id]`: the cells of the room whose board state is
`Black`, as `i32` pairs, in room order. -/
def blackCellsOf (c : AnyminoConstraint) (rid : Nat) : List (Int × Int) :=
  (c.rooms.getD rid []).foldl
    (fun acc p =>
      if boardAt c.board p.1 p.2 = CellState.Black then
        hsInsert acc ((p.1 : Int), (p.2 : Int))
      else acc)
    []

/-- The mutable pair (`adjacent_rooms[room_id]`, `white_adjacent_cells[room_id]`)
filled while scanning the neighbors of a room's black cells. -/
structure ScanState where
  adjacentRooms : List Nat
  whiteAdj : List (Int × Int)
deriving DecidableEq, Repr

/-- The inner neighbor loop for one black cell `(y, x)`; the `Bool` result
is `false` when a same-room `Undecided` neighbor was hit (the `is_closed =
false; break`). -/
def scanDirs (c : AnyminoConstraint) (rid : Nat) (y x : Int) :
    List (Int × Int) → ScanState → ScanState × Bool
  | [], st => (st, true)
  | d :: rest, st =>
    let ny := y + d.1
    let nx := x + d.2
    if ny < 0 ∨ (c.height : Int) ≤ ny ∨ nx < 0 ∨ (c.width : Int) ≤ nx then
      scanDirs c rid y x rest st
    else if roomAt c.room_id_map ny.toNat nx.toNat ≠ rid then
      if boardAt c.board ny.toNat nx.toNat = CellState.Black then
        scanDirs c rid y x rest
          { st with adjacentRooms :=
              hsInsert st.adjacentRooms (roomAt c.room_id_map ny.toNat nx.toNat) }
      else
        scanDirs c rid y x rest st
    else if boardAt c.board ny.toNat nx.toNat = CellState.White then
      scanDirs c rid y x rest
        { st with whiteAdj := hsInsert st.whiteAdj (ny, nx) }
    else if boardAt c.board ny.toNat nx.toNat = CellState.Undecided then
      (st, false)
    else
      scanDirs c rid y x rest st

/-- The outer loop over the room's black cells; aborts as soon as a cell
reports `is_closed = false`. -/
def scanBlacks (c : AnyminoConstraint) (rid : Nat) :
    List (Int × Int) → ScanState → ScanState × Bool
  | [], st => (st, true)
  | p :: rest, st =>
    match scanDirs c rid p.1 p.2 dirs st with
    | (st', true) => scanBlacks c rid rest st'
    | (st', false) => (st', false)

/-- The whole neighbor scan of one room, iterating its black-cell hash set
in the order `σc`. -/
def roomScan (σc : List (Int × Int) → List (Int × Int)) (c : AnyminoConstraint)
    (rid : Nat) : ScanState × Bool :=
  scanBlacks c rid (σc (blackCellsOf c rid)) ⟨[], []⟩

/-- `closed_blocks[room_id]`: empty unless the room is closed and has a
black cell, in which case it is the canonical shape of the black cells. -/
def closedBlockOf (σc : List (Int × Int) → List (Int × Int))
    (c : AnyminoConstraint) (rid : Nat) : List (Int × Int) :=
  if (roomScan σc c rid).2 = false ∨ blackCellsOf c rid = [] then []
  else normalize_block (σc (blackCellsOf c rid))

/-- The explanation built for the violating pair `(rid, arid)`: black cells
of both rooms as `true` literals, then their boundary white cells as
`false` literals, iterating each hash set in the order `σc`. -/
def explanationFor (σc : List (Int × Int) → List (Int × Int))
    (c : AnyminoConstraint) (rid arid : Nat) : List (Nat × Bool) :=
  (σc (blackCellsOf c rid)).map
      (fun p => ((p.1 * (c.width : Int) + p.2).toNat, true))
    ++ (σc (blackCellsOf c arid)).map
      (fun p => ((p.1 * (c.width : Int) + p.2).toNat, true))
    ++ (σc (roomScan σc c rid).1.whiteAdj).map
      (fun p => ((p.1 * (c.width : Int) + p.2).toNat, false))
    ++ (σc (roomScan σc c arid).1.whiteAdj).map
      (fun p => ((p.1 * (c.width : Int) + p.2).toNat, false))

/-- The inner loop of the conflict search: scan the rooms black-adjacent to
`rid` (in the iteration order `σr`). -/
def scanAdjacent (σc : List (Int × Int) → List (Int × Int))
    (c : AnyminoConstraint) (rid : Nat) :
    List Nat → Option (List (Nat × Bool))
  | [] => none
  | arid :: rest =>
    if closedBlockOf σc c arid = [] then scanAdjacent σc c rid rest
    else if closedBlockOf σc c rid = closedBlockOf σc c arid then
      some (explanationFor σc c rid arid)
    else scanAdjacent σc c rid rest

/-- The outer loop of the conflict search over ascending room ids.  The
`c.rooms = []` test models the dead `adjacent_rooms.is_empty()` check of
the source (`adjacent_rooms` has one entry per room). -/
def scanRooms (σc : List (Int × Int) → List (Int × Int))
    (σr : List Nat → List Nat) (c : AnyminoConstraint) :
    List Nat → Option (List (Nat × Bool))
  | [] => none
  | rid :: rest =>
    if closedBlockOf σc c rid = [] then scanRooms σc σr c rest
    else if c.rooms = [] then scanRooms σc σr c rest
    else
      match scanAdjacent σc c rid (σr (roomScan σc c rid).1.adjacentRooms) with
      | some e => some e
      | none => scanRooms σc σr c rest

/-- `find_inconsistency`, parameterized by the hash-set iteration orders
`σc` (coordinate sets) and `σr` (room-id sets).  The per-room vectors
`black_cells`, `white_adjacent_cells`, `adjacent_rooms` and `closed_blocks`
of the source are represented by the pure per-room functions
`blackCellsOf`, `roomScan` and `closedBlockOf`. -/
def find_inconsistency (σc : List (Int × Int) → List (Int × Int))
    (σr : List Nat → List Nat) (c : AnyminoConstraint) :
    Option (List (Nat × Bool)) :=
  scanRooms σc σr c (List.range c.rooms.length)

/-- `find_inconsistency` in state-passing form: the Rust signature takes
`&mut self`, and the body only reads `self`, so the threaded state is
returned unchanged. -/
def find_inconsistency_mut (σc : List (Int × Int) → List (Int × Int))
    (σr : List Nat → List Nat) (c : AnyminoConstraint) :
    Option (List (Nat × Bool)) × AnyminoConstraint :=
  (find_inconsistency σc σr c, c)

/-! ### Concrete test states -/

/-- The rooms of the 2×4 grid split into its two rows. -/
def rooms24 : List (List (Nat × Nat)) :=
  [[(0, 0), (0, 1), (0, 2), (0, 3)], [(1, 0), (1, 1), (1, 2), (1, 3)]]

/-- The room-id map of the 2×4 grid split into its two rows. -/
def roomMap24 : List (List Nat) := [[0, 0, 0, 0], [1, 1, 1, 1]]

/-- `notify` applied to a whole list of `(index, value)` assignments. -/
def applyNotifies (ns : List (Nat × Bool)) (c : AnyminoConstraint) :
    AnyminoConstraint :=
  ns.foldl (fun c nb => notify nb.1 nb.2 c) c

/-- `undo` iterated `n` times. -/
def undoN : Nat → AnyminoConstraint → Option AnyminoConstraint
  | 0, c => some c
  | n + 1, c =>
    match undo c with
    | none => none
    | some c' => undoN n c'

/-- The 2×4 board with both rows fully notified Black. -/
def s24 : AnyminoConstraint :=
  applyNotifies
    [(0, true), (1, true), (2, true), (3, true),
     (4, true), (5, true), (6, true), (7, true)]
    (AnyminoConstraint.new 2 4 rooms24 roomMap24)

example :
    (find_inconsistency id id s24).isSome = true ∧
    (find_inconsistency id id s24).getD [] ≠ [] ∧
    (((find_inconsistency id id s24).getD []).all fun q => q.2) = true ∧
    ((List.range 8).all fun i =>
      decide ((i, true) ∈ (find_inconsistency id id s24).getD [])) = true := by
  decide

/-- A propagator state whose board already holds a Black cell. -/
def cBlack : AnyminoConstraint :=
  { height := 1, width := 1, rooms := [[(0, 0)]], room_id_map := [[0]],
    board := [[CellState.Black]], decision_stack := [(0, 0)] }

/-- C6 counterexample: calling `initialize_sat` with the matching cell
count in a state with a Black cell and a non-empty decision stack succeeds
but leaves the cell Black and the stack non-empty — the board is *not*
reset to all-Undecided as the claim asserts. -/
theorem anymino_c6_counterexample :
    initialize_sat 1 cBlack = some cBlack ∧
    boardAt cBlack.board 0 0 = CellState.Black ∧
    cBlack.decision_stack ≠ [] := by
  decide

/-- C6 (amended): `initialize_sat` fails exactly when its argument differs
from `height * width`, and on success it returns the propagator state
unchanged (in particular, invoked on a freshly constructed propagator the
board stays all-Undecided and the stack stays empty; it does not reset
anything). -/
theorem anymino_c6_amended_assert_only (n : Nat) (c : AnyminoConstraint) :
    (initialize_sat n c = none ↔ n ≠ c.height * c.width) ∧
    (∀ c', initialize_sat n c = some c' → c' = c) := by
  unfold initialize_sat
  split_ifs with h
  · constructor
    · simp [h]
    · intro c' he
      exact (Option.some.injEq _ _).mp he |>.symm ▸ rfl
  · constructor
    · simp [h]
    · intro c' he
      cases he

/-- C9: `find_inconsistency` leaves every component of the propagator
state — board, decision stack, rooms, room-id map and the dimensions —
unchanged, and a repeated call on the state it returns yields the same
verdict. -/
theorem anymino_c9_find_inconsistency_pure
    (σc : List (Int × Int) → List (Int × Int)) (σr : List Nat → List Nat)
    (c : AnyminoConstraint) :
    (find_inconsistency_mut σc σr c).2.board = c.board ∧
    (find_inconsistency_mut σc σr c).2.decision_stack = c.decision_stack ∧
    (find_inconsistency_mut σc σr c).2.rooms = c.rooms ∧
    (find_inconsistency_mut σc σr c).2.room_id_map = c.room_id_map ∧
    (find_inconsistency_mut σc σr c).2 = c ∧
    (find_inconsistency_mut σc σr
        ((find_inconsistency_mut σc σr c).2)).1 =
      (find_inconsistency_mut σc σr c).1 :=
  ⟨rfl, rfl, rfl, rfl, rfl, rfl⟩

/-! ### Board access lemmas -/

/-- The one-lemma description of `setBoard`: the targeted cell changes when
it exists, everything else is untouched. -/
theorem boardAt_setBoard (b : List (List CellState)) (y x : Nat) (v : CellState)
    (y' x' : Nat) :
    boardAt (setBoard b y x v) y' x' =
      if y = y' ∧ x = x' ∧ y < b.length ∧ x < (b.getD y []).length then v
      else boardAt b y' x' := by
  unfold boardAt setBoard
  simp only [List.getD_eq_getElem?_getD]
  rw [List.getElem?_set]
  by_cases hy : y = y'
  · subst hy
    by_cases h1 : y < b.length
    · rw [if_pos rfl, if_pos h1]
      simp only [Option.getD_some]
      rw [List.getElem?_set]
      by_cases hx : x = x'
      · subst hx
        by_cases h2 : x < (b[y]?.getD []).length
        · rw [if_pos rfl, if_pos h2, if_pos (by exact ⟨by trivial, rfl, h1, h2⟩)]
          rfl
        · rw [if_pos rfl, if_neg h2, if_neg (by simp [h2]),
            List.getElem?_eq_none (Nat.le_of_not_lt h2)]
      · rw [if_neg hx, if_neg (by simp [hx])]
    · rw [if_pos rfl, if_neg h1, if_neg (by simp [h1]),
        List.getElem?_eq_none (Nat.le_of_not_lt h1)]
  · rw [if_neg hy, if_neg (by simp [hy])]

theorem setBoard_length (b : List (List CellState)) (y x : Nat) (v : CellState) :
    (setBoard b y x v).length = b.length :=
  List.length_set b y _

theorem setBoard_row_length (b : List (List CellState)) (y x : Nat)
    (v : CellState) (y' : Nat) :
    ((setBoard b y x v).getD y' []).length = (b.getD y' []).length := by
  unfold setBoard
  by_cases h1 : y < b.length
  · by_cases hy : y = y'
    · subst hy
      rw [List.getD_eq_getElem?_getD, List.getElem?_set, if_pos rfl, if_pos h1]
      rw [List.getD_eq_getElem?_getD (l := b), List.getElem?_eq_getElem h1]
      simp only [Option.getD_some]
      rw [List.length_set]
    · rw [List.getD_eq_getElem?_getD, List.getElem?_set, if_neg hy,
        List.getD_eq_getElem?_getD]
  · rw [List.set_eq_of_length_le (Nat.le_of_not_lt h1)]

theorem setBoard_rows_len {b : List (List CellState)} {w : Nat}
    (hall : ∀ r ∈ b, r.length = w) (y x : Nat) (v : CellState) :
    ∀ r ∈ setBoard b y x v, r.length = w := by
  intro r hr
  by_cases h1 : y < b.length
  · rcases List.mem_or_eq_of_mem_set hr with h | h
    · exact hall r h
    · subst h
      rw [List.length_set]
      apply hall
      rw [List.getD_eq_getElem?_getD, List.getElem?_eq_getElem h1]
      exact List.getElem_mem h1
  · unfold setBoard at hr
    rw [List.set_eq_of_length_le (Nat.le_of_not_lt h1)] at hr
    exact hall r hr

theorem boardAt_ne_undec_bounds {b : List (List CellState)} {y x : Nat}
    (h : boardAt b y x ≠ CellState.Undecided) :
    y < b.length ∧ x < (b.getD y []).length := by
  by_cases h1 : y < b.length
  · refine ⟨h1, ?_⟩
    by_cases h2 : x < (b.getD y []).length
    · exact h2
    · exfalso
      apply h
      unfold boardAt
      exact List.getD_eq_default _ _ (Nat.le_of_not_lt h2)
  · exfalso
    apply h
    unfold boardAt
    rw [List.getD_eq_default _ _ (Nat.le_of_not_lt h1)]
    rfl

/-- Undoing clears the popped coordinates in order. -/
def clearList (st : List (Nat × Nat)) (b : List (List CellState)) :
    List (List CellState) :=
  st.foldl (fun b p => setBoard b p.1 p.2 CellState.Undecided) b

theorem clearList_length (st : List (Nat × Nat)) (b : List (List CellState)) :
    (clearList st b).length = b.length := by
  induction st generalizing b with
  | nil => rfl
  | cons p rest ih =>
    show (clearList rest (setBoard b p.1 p.2 CellState.Undecided)).length = _
    rw [ih, setBoard_length]

theorem clearList_rows_len {st : List (Nat × Nat)} {b : List (List CellState)}
    {w : Nat} (hall : ∀ r ∈ b, r.length = w) :
    ∀ r ∈ clearList st b, r.length = w := by
  induction st generalizing b with
  | nil => exact hall
  | cons p rest ih =>
    exact ih (setBoard_rows_len hall p.1 p.2 CellState.Undecided)

/-- After clearing, a cell is Undecided if it already was, or if it occurs
(in range) among the cleared coordinates. -/
theorem clearList_undec {st : List (Nat × Nat)} {b : List (List CellState)}
    {y x : Nat}
    (h : boardAt b y x = CellState.Undecided ∨
      ((y, x) ∈ st ∧ y < b.length ∧ x < (b.getD y []).length)) :
    boardAt (clearList st b) y x = CellState.Undecided := by
  induction st generalizing b with
  | nil =>
    rcases h with h | h
    · exact h
    · cases h.1
  | cons p rest ih =>
    show boardAt (clearList rest (setBoard b p.1 p.2 CellState.Undecided)) y x = _
    rcases h with h | ⟨hmem, hy, hx⟩
    · apply ih
      left
      rw [boardAt_setBoard]
      split_ifs with hc
      · rfl
      · exact h
    · rcases List.mem_cons.mp hmem with he | he
      · apply ih
        left
        rw [boardAt_setBoard]
        rw [← he]
        rw [if_pos ⟨rfl, rfl, hy, hx⟩]
      · apply ih
        right
        refine ⟨he, ?_, ?_⟩
        · rw [setBoard_length]; exact hy
        · rw [setBoard_row_length]; exact hx

/-- Full unwinding of the decision stack. -/
theorem undoN_full (st : List (Nat × Nat)) (c : AnyminoConstraint)
    (h : c.decision_stack = st) :
    undoN st.length c =
      some { c with board := clearList st c.board, decision_stack := [] } := by
  induction st generalizing c with
  | nil =>
    show some c = _
    rw [show clearList [] c.board = c.board from rfl, ← h]
  | cons p rest ih =>
    have hu : undo c = some { c with
        board := setBoard c.board p.1 p.2 CellState.Undecided,
        decision_stack := rest } := by
      unfold undo
      rw [h]
    show undoN (rest.length + 1) c = _
    unfold undoN
    rw [hu]
    exact ih _ rfl

/-! ### Frame and stack-discipline facts for `notify` / `undo` -/

theorem applyNotifies_height (ns : List (Nat × Bool)) (c : AnyminoConstraint) :
    (applyNotifies ns c).height = c.height := by
  induction ns generalizing c with
  | nil => rfl
  | cons nb rest ih => exact ih (notify nb.1 nb.2 c)

theorem applyNotifies_width (ns : List (Nat × Bool)) (c : AnyminoConstraint) :
    (applyNotifies ns c).width = c.width := by
  induction ns generalizing c with
  | nil => rfl
  | cons nb rest ih => exact ih (notify nb.1 nb.2 c)

theorem applyNotifies_rooms (ns : List (Nat × Bool)) (c : AnyminoConstraint) :
    (applyNotifies ns c).rooms = c.rooms := by
  induction ns generalizing c with
  | nil => rfl
  | cons nb rest ih => exact ih (notify nb.1 nb.2 c)

theorem applyNotifies_room_id_map (ns : List (Nat × Bool)) (c : AnyminoConstraint) :
    (applyNotifies ns c).room_id_map = c.room_id_map := by
  induction ns generalizing c with
  | nil => rfl
  | cons nb rest ih => exact ih (notify nb.1 nb.2 c)

theorem applyNotifies_stack_length (ns : List (Nat × Bool)) (c : AnyminoConstraint) :
    (applyNotifies ns c).decision_stack.length =
      ns.length + c.decision_stack.length := by
  induction ns generalizing c with
  | nil => simp [applyNotifies]
  | cons nb rest ih =>
    show (applyNotifies rest (notify nb.1 nb.2 c)).decision_stack.length = _
    rw [ih]
    show rest.length + (c.decision_stack.length + 1) = _
    simp only [List.length_cons]
    omega

theorem applyNotifies_board_length (ns : List (Nat × Bool)) (c : AnyminoConstraint) :
    (applyNotifies ns c).board.length = c.board.length := by
  induction ns generalizing c with
  | nil => rfl
  | cons nb rest ih =>
    show (applyNotifies rest (notify nb.1 nb.2 c)).board.length = _
    rw [ih]
    exact setBoard_length c.board _ _ _

theorem applyNotifies_rows_len {ns : List (Nat × Bool)} {c : AnyminoConstraint}
    {w : Nat} (hall : ∀ r ∈ c.board, r.length = w) :
    ∀ r ∈ (applyNotifies ns c).board, r.length = w := by
  induction ns generalizing c with
  | nil => exact hall
  | cons nb rest ih => exact ih (setBoard_rows_len hall _ _ _)

/-- Every non-Undecided cell is recorded on the decision stack. -/
def OnlyStacked (c : AnyminoConstraint) : Prop :=
  ∀ y x, boardAt c.board y x ≠ CellState.Undecided → (y, x) ∈ c.decision_stack

theorem boardAt_replicate (h w y x : Nat) :
    boardAt (List.replicate h (List.replicate w CellState.Undecided)) y x =
      CellState.Undecided := by
  unfold boardAt
  simp only [List.getD_eq_getElem?_getD]
  rw [List.getElem?_replicate]
  by_cases hy : y < h
  · rw [if_pos hy]
    simp only [Option.getD_some]
    rw [List.getElem?_replicate]
    by_cases hx : x < w
    · rw [if_pos hx]
      rfl
    · rw [if_neg hx]
      rfl
  · rw [if_neg hy]
    rfl

theorem onlyStacked_new (h w : Nat) (rooms : List (List (Nat × Nat)))
    (rmap : List (List Nat)) : OnlyStacked (AnyminoConstraint.new h w rooms rmap) := by
  intro y x hc
  exact absurd (boardAt_replicate h w y x) hc

theorem onlyStacked_notify {c : AnyminoConstraint} (hc : OnlyStacked c)
    (i : Nat) (v : Bool) : OnlyStacked (notify i v c) := by
  intro y x hne
  show (y, x) ∈ (i / c.width, i % c.width) :: c.decision_stack
  rw [show (notify i v c).board =
    setBoard c.board (i / c.width) (i % c.width)
      (if v then CellState.Black else CellState.White) from rfl] at hne
  rw [boardAt_setBoard] at hne
  by_cases hcell : i / c.width = y ∧ i % c.width = x ∧
      i / c.width < c.board.length ∧
      i % c.width < (c.board.getD (i / c.width) []).length
  · rw [show ((y, x) : Nat × Nat) = (i / c.width, i % c.width) from by
      rw [hcell.1, hcell.2.1]]
    exact List.mem_cons_self _ _
  · rw [if_neg hcell] at hne
    exact List.mem_cons_of_mem _ (hc y x hne)

theorem onlyStacked_applyNotifies {c : AnyminoConstraint} (hc : OnlyStacked c)
    (ns : List (Nat × Bool)) : OnlyStacked (applyNotifies ns c) := by
  induction ns generalizing c with
  | nil => exact hc
  | cons nb rest ih => exact ih (onlyStacked_notify hc nb.1 nb.2)

/-- A board of the right dimensions whose every cell reads Undecided is the
all-Undecided board. -/
theorem board_eq_replicate {b : List (List CellState)} {h w : Nat}
    (hlen : b.length = h) (hrow : ∀ r ∈ b, r.length = w)
    (hcell : ∀ y x, boardAt b y x = CellState.Undecided) :
    b = List.replicate h (List.replicate w CellState.Undecided) := by
  apply List.ext_getElem?
  intro n
  rw [List.getElem?_replicate]
  by_cases hn : n < h
  · rw [if_pos hn]
    have hn' : n < b.length := by omega
    rw [List.getElem?_eq_getElem hn']
    congr 1
    apply List.ext_getElem?
    intro m
    rw [List.getElem?_replicate]
    have hrl : b[n].length = w := hrow _ (List.getElem_mem hn')
    by_cases hm : m < w
    · rw [if_pos hm]
      have hm' : m < b[n].length := by omega
      rw [List.getElem?_eq_getElem hm']
      congr 1
      have := hcell n m
      unfold boardAt at this
      simp only [List.getD_eq_getElem?_getD] at this
      rw [List.getElem?_eq_getElem hn'] at this
      simp only [Option.getD_some] at this
      rw [List.getElem?_eq_getElem hm'] at this
      simp only [Option.getD_some] at this
      exact this
    · rw [if_neg hm]
      exact List.getElem?_eq_none (by omega)
  · rw [if_neg hn]
    exact List.getElem?_eq_none (by omega)

/-- C5: starting from a freshly constructed propagator, any sequence of
notify calls followed by the same number of undo calls succeeds and returns
the propagator to its initial state: every cell Undecided and an empty
decision stack.  The index-range hypothesis records the precondition under
which the Rust indexing cannot panic; the total model satisfies the
conclusion even without it. -/
theorem anymino_c5_stack_discipline (h w : Nat) (rooms : List (List (Nat × Nat)))
    (rmap : List (List Nat)) (ns : List (Nat × Bool))
    (hns : ∀ p ∈ ns, p.1 < h * w) :
    undoN ns.length (applyNotifies ns (AnyminoConstraint.new h w rooms rmap)) =
      some (AnyminoConstraint.new h w rooms rmap) := by
  set c₀ := AnyminoConstraint.new h w rooms rmap with hc₀
  set cf := applyNotifies ns c₀ with hcf
  have hlen : cf.decision_stack.length = ns.length := by
    rw [hcf, applyNotifies_stack_length]
    rfl
  have hfull := undoN_full cf.decision_stack cf rfl
  rw [hlen] at hfull
  rw [hfull]
  congr 1
  have hbl : cf.board.length = h := by
    rw [hcf, applyNotifies_board_length]
    exact List.length_replicate h _
  have hbr : ∀ r ∈ cf.board, r.length = w := by
    rw [hcf]
    apply applyNotifies_rows_len
    intro r hr
    rw [List.eq_of_mem_replicate hr]
    exact List.length_replicate w _
  have hstacked : OnlyStacked cf := by
    rw [hcf]
    exact onlyStacked_applyNotifies (onlyStacked_new h w rooms rmap) ns
  have hboard : clearList cf.decision_stack cf.board =
      List.replicate h (List.replicate w CellState.Undecided) := by
    apply board_eq_replicate
    · rw [clearList_length]; exact hbl
    · exact clearList_rows_len hbr
    · intro y x
      by_cases hu : boardAt cf.board y x = CellState.Undecided
      · exact clearList_undec (Or.inl hu)
      · obtain ⟨h1, h2⟩ := boardAt_ne_undec_bounds hu
        exact clearList_undec (Or.inr ⟨hstacked y x hu, h1, h2⟩)
  show ({ cf with
      board := clearList cf.decision_stack cf.board,
      decision_stack := [] } : AnyminoConstraint) = c₀
  rw [hboard]
  have h1 : cf.height = h := by rw [hcf, applyNotifies_height]; rfl
  have h2 : cf.width = w := by rw [hcf, applyNotifies_width]; rfl
  have h3 : cf.rooms = rooms := by rw [hcf, applyNotifies_rooms]; rfl
  have h4 : cf.room_id_map = rmap := by rw [hcf, applyNotifies_room_id_map]; rfl
  rw [hc₀]
  unfold AnyminoConstraint.new
  simp only [AnyminoConstraint.mk.injEq]
  exact ⟨h1, h2, h3, h4, by trivial, by trivial⟩

/-- C5 witness: a concrete run on a 2×2 board, including a repeated cell. -/
theorem anymino_c5_stack_discipline_witness :
    undoN 3 (applyNotifies [(0, true), (3, false), (0, false)]
      (AnyminoConstraint.new 2 2 [[(0, 0), (0, 1)], [(1, 0), (1, 1)]]
        [[0, 0], [1, 1]])) =
      some (AnyminoConstraint.new 2 2 [[(0, 0), (0, 1)], [(1, 0), (1, 1)]]
        [[0, 0], [1, 1]]) :=
  anymino_c5_stack_discipline 2 2 _ _ [(0, true), (3, false), (0, false)]
    (by decide)

/-- C10: for an in-range linear index `i` on a well-dimensioned board,
`notify i v` sets exactly the cell `(i / width, i % width)` to Black when
`v` is true and White otherwise, leaves every other cell, the rooms, the
room-id map and the dimensions unchanged, and pushes exactly that
coordinate as one new entry on top of the decision stack, keeping the
existing entries. -/
theorem anymino_c10_notify_frame (c : AnyminoConstraint) (i : Nat) (v : Bool)
    (hi : i < c.height * c.width)
    (hb : c.board.length = c.height)
    (hrow : ∀ r ∈ c.board, r.length = c.width) :
    boardAt (notify i v c).board (i / c.width) (i % c.width) =
      (if v then CellState.Black else CellState.White) ∧
    (∀ y' x', (y', x') ≠ (i / c.width, i % c.width) →
      boardAt (notify i v c).board y' x' = boardAt c.board y' x') ∧
    (notify i v c).rooms = c.rooms ∧
    (notify i v c).room_id_map = c.room_id_map ∧
    (notify i v c).height = c.height ∧
    (notify i v c).width = c.width ∧
    (notify i v c).decision_stack =
      (i / c.width, i % c.width) :: c.decision_stack := by
  have hw : 0 < c.width := by
    rcases Nat.eq_zero_or_pos c.width with h | h
    · rw [h, Nat.mul_zero] at hi
      cases Nat.not_lt_zero i hi
    · exact h
  have hy : i / c.width < c.height :=
    (Nat.div_lt_iff_lt_mul hw).mpr hi
  have hx : i % c.width < c.width := Nat.mod_lt i hw
  have hyb : i / c.width < c.board.length := by rw [hb]; exact hy
  have hrowlen : (c.board.getD (i / c.width) []).length = c.width := by
    rw [List.getD_eq_getElem?_getD, List.getElem?_eq_getElem hyb]
    exact hrow _ (List.getElem_mem hyb)
  refine ⟨?_, ?_, rfl, rfl, rfl, rfl, rfl⟩
  · show boardAt (setBoard c.board (i / c.width) (i % c.width) _) _ _ = _
    rw [boardAt_setBoard]
    rw [if_pos ⟨rfl, rfl, hyb, by rw [hrowlen]; exact hx⟩]
  · intro y' x' hne
    show boardAt (setBoard c.board (i / c.width) (i % c.width) _) _ _ = _
    rw [boardAt_setBoard]
    rw [if_neg (fun hc => hne (by rw [hc.1, hc.2.1]))]

/-- C10 witness: notifying index 3 on a fresh 2×2 board. -/
theorem anymino_c10_notify_frame_witness :
    (3 < 2 * 2 ∧
      (AnyminoConstraint.new 2 2 [[(0, 0), (0, 1)], [(1, 0), (1, 1)]]
        [[0, 0], [1, 1]]).board.length = 2) ∧
    (boardAt (notify 3 true (AnyminoConstraint.new 2 2
        [[(0, 0), (0, 1)], [(1, 0), (1, 1)]] [[0, 0], [1, 1]])).board 1 1 =
        CellState.Black ∧
      (∀ y' x', (y', x') ≠ (1, 1) →
        boardAt (notify 3 true (AnyminoConstraint.new 2 2
          [[(0, 0), (0, 1)], [(1, 0), (1, 1)]] [[0, 0], [1, 1]])).board y' x' =
        boardAt (AnyminoConstraint.new 2 2
          [[(0, 0), (0, 1)], [(1, 0), (1, 1)]] [[0, 0], [1, 1]]).board y' x') ∧
      (notify 3 true (AnyminoConstraint.new 2 2
        [[(0, 0), (0, 1)], [(1, 0), (1, 1)]] [[0, 0], [1, 1]])).decision_stack =
        (1, 1) :: (AnyminoConstraint.new 2 2
          [[(0, 0), (0, 1)], [(1, 0), (1, 1)]] [[0, 0], [1, 1]]).decision_stack) := by
  refine ⟨⟨by decide, by decide⟩, ?_⟩
  have := anymino_c10_notify_frame
    (AnyminoConstraint.new 2 2 [[(0, 0), (0, 1)], [(1, 0), (1, 1)]]
      [[0, 0], [1, 1]]) 3 true (by decide) (by decide) (by decide)
  exact ⟨this.1, this.2.1, this.2.2.2.2.2.2⟩

/-! ### Semantic predicates for the conflict search -/

/-- The bounds check of the neighbor scan (negation of the skip guard). -/
def inB (c : AnyminoConstraint) (y x : Int) : Prop :=
  0 ≤ y ∧ y < (c.height : Int) ∧ 0 ≤ x ∧ x < (c.width : Int)

instance (c : AnyminoConstraint) (y x : Int) : Decidable (inB c y x) := by
  unfold inB; infer_instance

/-- The black cell at `(y, x)` of room `rid` sees a same-room Undecided
neighbor in direction `d`. -/
def undecNbrAt (c : AnyminoConstraint) (rid : Nat) (y x : Int) (d : Int × Int) :
    Prop :=
  inB c (y + d.1) (x + d.2) ∧
  roomAt c.room_id_map (y + d.1).toNat (x + d.2).toNat = rid ∧
  boardAt c.board (y + d.1).toNat (x + d.2).toNat = CellState.Undecided

instance (c : AnyminoConstraint) (rid : Nat) (y x : Int) (d : Int × Int) :
    Decidable (undecNbrAt c rid y x d) := by
  unfold undecNbrAt; infer_instance

/-- A region is closed when no black cell of it has a same-room Undecided
neighbor. -/
def RoomClosed (c : AnyminoConstraint) (rid : Nat) : Prop :=
  ∀ p ∈ blackCellsOf c rid, ∀ d ∈ dirs, ¬ undecNbrAt c rid p.1 p.2 d

instance (c : AnyminoConstraint) (rid : Nat) : Decidable (RoomClosed c rid) := by
  unfold RoomClosed; infer_instance

/-- The black cell at `(y, x)` of room `rid` sees, in direction `d`, an
in-bounds Black neighbor belonging to the different room `a`. -/
def adjGen (c : AnyminoConstraint) (rid : Nat) (y x : Int) (d : Int × Int)
    (a : Nat) : Prop :=
  inB c (y + d.1) (x + d.2) ∧
  roomAt c.room_id_map (y + d.1).toNat (x + d.2).toNat = a ∧
  a ≠ rid ∧
  boardAt c.board (y + d.1).toNat (x + d.2).toNat = CellState.Black

instance (c : AnyminoConstraint) (rid : Nat) (y x : Int) (d : Int × Int)
    (a : Nat) : Decidable (adjGen c rid y x d a) := by
  unfold adjGen; infer_instance

/-- Room `rid` is black-adjacent to room `a`: some black cell of `rid` has
an in-bounds Black 4-neighbor lying in room `a ≠ rid`. -/
def BlackAdjTo (c : AnyminoConstraint) (rid a : Nat) : Prop :=
  ∃ p ∈ blackCellsOf c rid, ∃ d ∈ dirs, adjGen c rid p.1 p.2 d a

/-- `q` is generated as a boundary-white cell of room `rid` by the black
cell `(y, x)` in direction `d`. -/
def whiteGen (c : AnyminoConstraint) (rid : Nat) (y x : Int) (d : Int × Int)
    (q : Int × Int) : Prop :=
  q = (y + d.1, x + d.2) ∧
  inB c q.1 q.2 ∧
  roomAt c.room_id_map q.1.toNat q.2.toNat = rid ∧
  boardAt c.board q.1.toNat q.2.toNat = CellState.White

/-- `q` is a boundary-white cell of room `rid`: a same-room White
4-neighbor of one of the room's black cells. -/
def BoundaryWhite (c : AnyminoConstraint) (rid : Nat) (q : Int × Int) : Prop :=
  ∃ p ∈ blackCellsOf c rid, ∃ d ∈ dirs, whiteGen c rid p.1 p.2 d q

/-- The linear index of a cell, as computed for explanation literals. -/
def toIdx (c : AnyminoConstraint) (p : Int × Int) : Nat :=
  (p.1 * (c.width : Int) + p.2).toNat

/-- A violating pair in the sense of the conflict search: both rooms
closed, both with black cells, `rid` black-adjacent to `arid` (which forces
`arid ≠ rid`), and equal canonical shapes. -/
def Violation (c : AnyminoConstraint) (rid arid : Nat) : Prop :=
  RoomClosed c rid ∧ RoomClosed c arid ∧
  blackCellsOf c rid ≠ [] ∧ blackCellsOf c arid ≠ [] ∧
  BlackAdjTo c rid arid ∧
  normalize_block (blackCellsOf c rid) = normalize_block (blackCellsOf c arid)

/-- The description of the literals of the explanation for the pair
`(rid, arid)`: the black cells of either room with `true`, the boundary
white cells of either room with `false`. -/
def ExplLit (c : AnyminoConstraint) (rid arid : Nat) (q : Nat × Bool) : Prop :=
  (q.2 = true ∧ ∃ p, (p ∈ blackCellsOf c rid ∨ p ∈ blackCellsOf c arid) ∧
    q.1 = toIdx c p) ∨
  (q.2 = false ∧ ∃ p, (BoundaryWhite c rid p ∨ BoundaryWhite c arid p) ∧
    q.1 = toIdx c p)

theorem mem_hsInsert {α : Type} [DecidableEq α] (l : List α) (a b : α) :
    b ∈ hsInsert l a ↔ b ∈ l ∨ b = a := by
  unfold hsInsert
  split_ifs with h
  · constructor
    · exact Or.inl
    · rintro (hb | hb)
      · exact hb
      · rw [hb]; exact h
  · rw [List.mem_append, List.mem_singleton]

theorem blackCellsOf_oob {c : AnyminoConstraint} {rid : Nat}
    (h : blackCellsOf c rid ≠ []) : rid < c.rooms.length := by
  by_contra hge
  apply h
  unfold blackCellsOf
  rw [List.getD_eq_default _ _ (Nat.le_of_not_lt hge)]
  rfl

theorem inB_iff (c : AnyminoConstraint) (y x : Int) :
    inB c y x ↔ 0 ≤ y ∧ y < (c.height : Int) ∧ 0 ≤ x ∧ x < (c.width : Int) :=
  Iff.rfl

theorem mem_blackCellsOf_aux (c : AnyminoConstraint) (l : List (Nat × Nat))
    (init : List (Int × Int)) (x : Int × Int) :
    (x ∈ l.foldl
      (fun acc p =>
        if boardAt c.board p.1 p.2 = CellState.Black then
          hsInsert acc ((p.1 : Int), (p.2 : Int))
        else acc)
      init) ↔
      x ∈ init ∨ ∃ q ∈ l, boardAt c.board q.1 q.2 = CellState.Black ∧
        x = ((q.1 : Int), (q.2 : Int)) := by
  induction l generalizing init with
  | nil => simp
  | cons q rest ih =>
    simp only [List.foldl_cons]
    rw [ih]
    by_cases hq : boardAt c.board q.1 q.2 = CellState.Black
    · rw [if_pos hq, mem_hsInsert]
      simp only [List.mem_cons]
      constructor
      · rintro ((h | h) | ⟨r, hr, hb, he⟩)
        · exact Or.inl h
        · exact Or.inr ⟨q, Or.inl rfl, hq, h⟩
        · exact Or.inr ⟨r, Or.inr hr, hb, he⟩
      · rintro (h | ⟨r, (hr | hr), hb, he⟩)
        · exact Or.inl (Or.inl h)
        · subst hr
          exact Or.inl (Or.inr he)
        · exact Or.inr ⟨r, hr, hb, he⟩
    · rw [if_neg hq]
      simp only [List.mem_cons]
      constructor
      · rintro (h | ⟨r, hr, hb, he⟩)
        · exact Or.inl h
        · exact Or.inr ⟨r, Or.inr hr, hb, he⟩
      · rintro (h | ⟨r, (hr | hr), hb, he⟩)
        · exact Or.inl h
        · subst hr
          exact absurd hb hq
        · exact Or.inr ⟨r, hr, hb, he⟩

/-- Membership description of `black_cells[room_id]`. -/
theorem mem_blackCellsOf (c : AnyminoConstraint) (rid : Nat) (x : Int × Int) :
    x ∈ blackCellsOf c rid ↔
      ∃ q ∈ c.rooms.getD rid [], boardAt c.board q.1 q.2 = CellState.Black ∧
        x = ((q.1 : Int), (q.2 : Int)) := by
  unfold blackCellsOf
  rw [mem_blackCellsOf_aux]
  simp

/-- The non-aborting effect of inspecting one neighbor: exactly the
insertions the source performs when no same-room Undecided neighbor stops
the scan. -/
def dirStep (c : AnyminoConstraint) (rid : Nat) (y x : Int) (st : ScanState)
    (d : Int × Int) : ScanState :=
  let ny := y + d.1
  let nx := x + d.2
  if ny < 0 ∨ (c.height : Int) ≤ ny ∨ nx < 0 ∨ (c.width : Int) ≤ nx then st
  else if roomAt c.room_id_map ny.toNat nx.toNat ≠ rid then
    if boardAt c.board ny.toNat nx.toNat = CellState.Black then
      { st with adjacentRooms :=
          hsInsert st.adjacentRooms (roomAt c.room_id_map ny.toNat nx.toNat) }
    else st
  else if boardAt c.board ny.toNat nx.toNat = CellState.White then
    { st with whiteAdj := hsInsert st.whiteAdj (ny, nx) }
  else st

/-- The verdict of the per-cell neighbor scan: `true` exactly when no
direction shows a same-room Undecided neighbor (independent of the
accumulated state). -/
theorem scanDirs_snd (c : AnyminoConstraint) (rid : Nat) (y x : Int)
    (ds : List (Int × Int)) (st : ScanState) :
    (scanDirs c rid y x ds st).2 = true ↔
      ∀ d ∈ ds, ¬ undecNbrAt c rid y x d := by
  induction ds generalizing st with
  | nil => simp [scanDirs]
  | cons d rest ih =>
    rw [List.forall_mem_cons]
    simp only [scanDirs]
    split_ifs with h1 h2 h3 h4 h5
    · have hnot : ¬ undecNbrAt c rid y x d := by
        intro hu
        have hb := hu.1
        have b1 : (0 : Int) ≤ y + d.1 := hb.1
        have b2 := hb.2.1
        have b3 := hb.2.2.1
        have b4 := hb.2.2.2
        rcases h1 with g | g | g | g <;> omega
      simp [ih, hnot]
    · have hnot : ¬ undecNbrAt c rid y x d := fun hu => h2 hu.2.1
      simp [ih, hnot]
    · have hnot : ¬ undecNbrAt c rid y x d := fun hu => h2 hu.2.1
      simp [ih, hnot]
    · have hnot : ¬ undecNbrAt c rid y x d := by
        intro hu
        have := hu.2.2
        rw [this] at h4
        exact CellState.noConfusion h4
      simp [ih, hnot]
    · have hu : undecNbrAt c rid y x d := by
        refine ⟨?_, not_not.mp h2, h5⟩
        push_neg at h1
        exact ⟨h1.1, h1.2.1, h1.2.2.1, h1.2.2.2⟩
      simp [hu]
    · have hnot : ¬ undecNbrAt c rid y x d := fun hu => h5 hu.2.2
      simp [ih, hnot]

/-- When the per-cell scan does not abort, its accumulated state is the
plain fold of the per-direction insertions. -/
theorem scanDirs_fst (c : AnyminoConstraint) (rid : Nat) (y x : Int)
    (ds : List (Int × Int)) (st : ScanState)
    (h : (scanDirs c rid y x ds st).2 = true) :
    (scanDirs c rid y x ds st).1 = ds.foldl (dirStep c rid y x) st := by
  induction ds generalizing st with
  | nil => rfl
  | cons d rest ih =>
    simp only [scanDirs] at h ⊢
    simp only [List.foldl_cons, dirStep]
    split_ifs at h ⊢ with h1 h2 h3 h4 h5
    all_goals exact ih _ h

/-- The non-aborting effect of scanning all neighbors of one black cell. -/
def cellStep (c : AnyminoConstraint) (rid : Nat) (st : ScanState)
    (p : Int × Int) : ScanState :=
  dirs.foldl (dirStep c rid p.1 p.2) st

/-- The closure verdict of the whole room scan, independent of the
accumulated state. -/
theorem scanBlacks_snd (c : AnyminoConstraint) (rid : Nat)
    (l : List (Int × Int)) (st : ScanState) :
    (scanBlacks c rid l st).2 = true ↔
      ∀ p ∈ l, ∀ d ∈ dirs, ¬ undecNbrAt c rid p.1 p.2 d := by
  induction l generalizing st with
  | nil => simp [scanBlacks]
  | cons p rest ih =>
    rw [List.forall_mem_cons]
    simp only [scanBlacks]
    rcases hsc : scanDirs c rid p.1 p.2 dirs st with ⟨st', b⟩
    have hiff := scanDirs_snd c rid p.1 p.2 dirs st
    rw [hsc] at hiff
    cases b with
    | false =>
      simp only [Bool.false_eq_true, false_iff] at hiff ⊢
      intro hc
      exact hiff hc.1
    | true =>
      simp only [true_iff] at hiff
      show (scanBlacks c rid rest st').2 = true ↔ _
      rw [ih]
      exact ⟨fun hr => ⟨hiff, hr⟩, fun hh => hh.2⟩

/-- When the room is closed, the accumulated state of the room scan is the
plain double fold of the per-direction insertions. -/
theorem scanBlacks_fst (c : AnyminoConstraint) (rid : Nat)
    (l : List (Int × Int)) (st : ScanState)
    (h : (scanBlacks c rid l st).2 = true) :
    (scanBlacks c rid l st).1 = l.foldl (cellStep c rid) st := by
  induction l generalizing st with
  | nil => rfl
  | cons p rest ih =>
    simp only [scanBlacks] at h ⊢
    rcases hsc : scanDirs c rid p.1 p.2 dirs st with ⟨st', b⟩
    rw [hsc] at h
    cases b with
    | false => simp at h
    | true =>
      simp only at h ⊢
      have hv : (scanDirs c rid p.1 p.2 dirs st).2 = true := by rw [hsc]
      have hst' : st' = cellStep c rid st p := by
        have := scanDirs_fst c rid p.1 p.2 dirs st hv
        rw [hsc] at this
        exact this
      rw [List.foldl_cons, ← hst']
      exact ih st' h

/-- Adjacent-room membership after inspecting one neighbor. -/
theorem dirStep_adj_mem (c : AnyminoConstraint) (rid : Nat) (y x : Int)
    (st : ScanState) (d : Int × Int) (a : Nat) :
    a ∈ (dirStep c rid y x st d).adjacentRooms ↔
      a ∈ st.adjacentRooms ∨ adjGen c rid y x d a := by
  simp only [dirStep]
  split_ifs with h1 h2 h3 h4
  · have hnot : ¬ adjGen c rid y x d a := by
      intro hg
      have hb := hg.1
      have b1 : (0 : Int) ≤ y + d.1 := hb.1
      have b2 := hb.2.1
      have b3 := hb.2.2.1
      have b4 := hb.2.2.2
      rcases h1 with g | g | g | g <;> omega
    simp [hnot]
  · simp only [mem_hsInsert]
    constructor
    · rintro (h | h)
      · exact Or.inl h
      · right
        refine ⟨?_, h.symm, ?_, h3⟩
        · push_neg at h1
          exact ⟨h1.1, h1.2.1, h1.2.2.1, h1.2.2.2⟩
        · rw [h]
          exact h2
    · rintro (h | hg)
      · exact Or.inl h
      · exact Or.inr hg.2.1.symm
  · have hnot : ¬ adjGen c rid y x d a := by
      intro hg
      exact h3 hg.2.2.2
    simp [hnot]
  · have hnot : ¬ adjGen c rid y x d a := by
      intro hg
      apply hg.2.2.1
      rw [← hg.2.1]
      exact not_not.mp h2
    simp [hnot]
  · have hnot : ¬ adjGen c rid y x d a := by
      intro hg
      apply hg.2.2.1
      rw [← hg.2.1]
      exact not_not.mp h2
    simp [hnot]

/-- Boundary-white membership after inspecting one neighbor. -/
theorem dirStep_white_mem (c : AnyminoConstraint) (rid : Nat) (y x : Int)
    (st : ScanState) (d : Int × Int) (q : Int × Int) :
    q ∈ (dirStep c rid y x st d).whiteAdj ↔
      q ∈ st.whiteAdj ∨ whiteGen c rid y x d q := by
  simp only [dirStep]
  split_ifs with h1 h2 h3 h4
  · have hnot : ¬ whiteGen c rid y x d q := by
      intro hg
      have hb := hg.2.1
      rw [hg.1] at hb
      have b1 : (0 : Int) ≤ y + d.1 := hb.1
      have b2 := hb.2.1
      have b3 := hb.2.2.1
      have b4 := hb.2.2.2
      rcases h1 with g | g | g | g <;> omega
    simp [hnot]
  · have hnot : ¬ whiteGen c rid y x d q := by
      intro hg
      apply h2
      have := hg.2.2.1
      rw [hg.1] at this
      exact this
    simp [hnot]
  · have hnot : ¬ whiteGen c rid y x d q := by
      intro hg
      apply h2
      have := hg.2.2.1
      rw [hg.1] at this
      exact this
    simp [hnot]
  · simp only [mem_hsInsert]
    constructor
    · rintro (h | h)
      · exact Or.inl h
      · right
        refine ⟨h, ?_, ?_, ?_⟩
        · rw [h]
          push_neg at h1
          exact ⟨h1.1, h1.2.1, h1.2.2.1, h1.2.2.2⟩
        · rw [h]
          exact not_not.mp h2
        · rw [h]
          exact h4
    · rintro (h | hg)
      · exact Or.inl h
      · exact Or.inr hg.1
  · have hnot : ¬ whiteGen c rid y x d q := by
      intro hg
      apply h4
      have := hg.2.2.2
      rw [hg.1] at this
      exact this
    simp [hnot]

theorem foldl_dirStep_adj_mem (c : AnyminoConstraint) (rid : Nat) (y x : Int)
    (ds : List (Int × Int)) (st : ScanState) (a : Nat) :
    a ∈ (ds.foldl (dirStep c rid y x) st).adjacentRooms ↔
      a ∈ st.adjacentRooms ∨ ∃ d ∈ ds, adjGen c rid y x d a := by
  induction ds generalizing st with
  | nil => simp
  | cons d rest ih =>
    simp only [List.foldl_cons]
    rw [ih, dirStep_adj_mem]
    simp only [List.mem_cons]
    constructor
    · rintro ((h | h) | ⟨d', hd', hg⟩)
      · exact Or.inl h
      · exact Or.inr ⟨d, Or.inl rfl, h⟩
      · exact Or.inr ⟨d', Or.inr hd', hg⟩
    · rintro (h | ⟨d', (hd' | hd'), hg⟩)
      · exact Or.inl (Or.inl h)
      · subst hd'
        exact Or.inl (Or.inr hg)
      · exact Or.inr ⟨d', hd', hg⟩

theorem foldl_dirStep_white_mem (c : AnyminoConstraint) (rid : Nat) (y x : Int)
    (ds : List (Int × Int)) (st : ScanState) (q : Int × Int) :
    q ∈ (ds.foldl (dirStep c rid y x) st).whiteAdj ↔
      q ∈ st.whiteAdj ∨ ∃ d ∈ ds, whiteGen c rid y x d q := by
  induction ds generalizing st with
  | nil => simp
  | cons d rest ih =>
    simp only [List.foldl_cons]
    rw [ih, dirStep_white_mem]
    simp only [List.mem_cons]
    constructor
    · rintro ((h | h) | ⟨d', hd', hg⟩)
      · exact Or.inl h
      · exact Or.inr ⟨d, Or.inl rfl, h⟩
      · exact Or.inr ⟨d', Or.inr hd', hg⟩
    · rintro (h | ⟨d', (hd' | hd'), hg⟩)
      · exact Or.inl (Or.inl h)
      · subst hd'
        exact Or.inl (Or.inr hg)
      · exact Or.inr ⟨d', hd', hg⟩

theorem foldl_cellStep_adj_mem (c : AnyminoConstraint) (rid : Nat)
    (l : List (Int × Int)) (st : ScanState) (a : Nat) :
    a ∈ (l.foldl (cellStep c rid) st).adjacentRooms ↔
      a ∈ st.adjacentRooms ∨ ∃ p ∈ l, ∃ d ∈ dirs, adjGen c rid p.1 p.2 d a := by
  induction l generalizing st with
  | nil => simp
  | cons p rest ih =>
    simp only [List.foldl_cons]
    rw [ih]
    unfold cellStep
    rw [foldl_dirStep_adj_mem]
    simp only [List.mem_cons]
    constructor
    · rintro ((h | h) | ⟨p', hp', hg⟩)
      · exact Or.inl h
      · exact Or.inr ⟨p, Or.inl rfl, h⟩
      · exact Or.inr ⟨p', Or.inr hp', hg⟩
    · rintro (h | ⟨p', (hp' | hp'), hg⟩)
      · exact Or.inl (Or.inl h)
      · subst hp'
        exact Or.inl (Or.inr hg)
      · exact Or.inr ⟨p', hp', hg⟩

theorem foldl_cellStep_white_mem (c : AnyminoConstraint) (rid : Nat)
    (l : List (Int × Int)) (st : ScanState) (q : Int × Int) :
    q ∈ (l.foldl (cellStep c rid) st).whiteAdj ↔
      q ∈ st.whiteAdj ∨ ∃ p ∈ l, ∃ d ∈ dirs, whiteGen c rid p.1 p.2 d q := by
  induction l generalizing st with
  | nil => simp
  | cons p rest ih =>
    simp only [List.foldl_cons]
    rw [ih]
    unfold cellStep
    rw [foldl_dirStep_white_mem]
    simp only [List.mem_cons]
    constructor
    · rintro ((h | h) | ⟨p', hp', hg⟩)
      · exact Or.inl h
      · exact Or.inr ⟨p, Or.inl rfl, h⟩
      · exact Or.inr ⟨p', Or.inr hp', hg⟩
    · rintro (h | ⟨p', (hp' | hp'), hg⟩)
      · exact Or.inl (Or.inl h)
      · subst hp'
        exact Or.inl (Or.inr hg)
      · exact Or.inr ⟨p', hp', hg⟩

/-! ### Characterizing the per-room quantities -/

theorem roomScan_snd_iff {σc : List (Int × Int) → List (Int × Int)}
    (hσc : ∀ l, (σc l).Perm l) (c : AnyminoConstraint) (rid : Nat) :
    (roomScan σc c rid).2 = true ↔ RoomClosed c rid := by
  unfold roomScan RoomClosed
  rw [scanBlacks_snd]
  constructor
  · intro h p hp
    exact h p ((hσc (blackCellsOf c rid)).mem_iff.mpr hp)
  · intro h p hp
    exact h p ((hσc (blackCellsOf c rid)).mem_iff.mp hp)

theorem roomScan_adj_mem {σc : List (Int × Int) → List (Int × Int)}
    (hσc : ∀ l, (σc l).Perm l) {c : AnyminoConstraint} {rid : Nat}
    (hcl : RoomClosed c rid) (a : Nat) :
    a ∈ (roomScan σc c rid).1.adjacentRooms ↔ BlackAdjTo c rid a := by
  have hv : (roomScan σc c rid).2 = true := (roomScan_snd_iff hσc c rid).mpr hcl
  unfold roomScan at hv ⊢
  rw [scanBlacks_fst _ _ _ _ hv, foldl_cellStep_adj_mem]
  unfold BlackAdjTo
  constructor
  · rintro (h | ⟨p, hp, hg⟩)
    · cases h
    · exact ⟨p, (hσc (blackCellsOf c rid)).mem_iff.mp hp, hg⟩
  · rintro ⟨p, hp, hg⟩
    exact Or.inr ⟨p, (hσc (blackCellsOf c rid)).mem_iff.mpr hp, hg⟩

theorem roomScan_white_mem {σc : List (Int × Int) → List (Int × Int)}
    (hσc : ∀ l, (σc l).Perm l) {c : AnyminoConstraint} {rid : Nat}
    (hcl : RoomClosed c rid) (q : Int × Int) :
    q ∈ (roomScan σc c rid).1.whiteAdj ↔ BoundaryWhite c rid q := by
  have hv : (roomScan σc c rid).2 = true := (roomScan_snd_iff hσc c rid).mpr hcl
  unfold roomScan at hv ⊢
  rw [scanBlacks_fst _ _ _ _ hv, foldl_cellStep_white_mem]
  unfold BoundaryWhite
  constructor
  · rintro (h | ⟨p, hp, hg⟩)
    · cases h
    · exact ⟨p, (hσc (blackCellsOf c rid)).mem_iff.mp hp, hg⟩
  · rintro ⟨p, hp, hg⟩
    exact Or.inr ⟨p, (hσc (blackCellsOf c rid)).mem_iff.mpr hp, hg⟩

theorem closedBlockOf_ne_nil_iff {σc : List (Int × Int) → List (Int × Int)}
    (hσc : ∀ l, (σc l).Perm l) (c : AnyminoConstraint) (rid : Nat) :
    closedBlockOf σc c rid ≠ [] ↔
      RoomClosed c rid ∧ blackCellsOf c rid ≠ [] := by
  unfold closedBlockOf
  split_ifs with h
  · simp only [ne_eq, not_true_eq_false, false_iff]
    rintro ⟨hcl, hne⟩
    rcases h with h | h
    · have ht := (roomScan_snd_iff hσc c rid).mpr hcl
      rw [ht] at h
      cases h
    · exact hne h
  · push_neg at h
    constructor
    · intro _
      constructor
      · rw [← roomScan_snd_iff hσc]
        simpa using h.1
      · exact h.2
    · intro _
      apply normalize_block_ne_nil
      intro he
      apply h.2
      have hp := (hσc (blackCellsOf c rid)).symm
      rw [he] at hp
      exact hp.eq_nil

theorem closedBlockOf_eq_of {σc : List (Int × Int) → List (Int × Int)}
    (hσc : ∀ l, (σc l).Perm l) {c : AnyminoConstraint} {rid : Nat}
    (hcl : RoomClosed c rid) (hne : blackCellsOf c rid ≠ []) :
    closedBlockOf σc c rid = normalize_block (blackCellsOf c rid) := by
  unfold closedBlockOf
  rw [if_neg]
  · exact normalize_block_of_perm (hσc (blackCellsOf c rid))
  · push_neg
    constructor
    · have ht := (roomScan_snd_iff hσc c rid).mpr hcl
      rw [ht]
      decide
    · exact hne

/-! ### Characterizing the two search loops -/

/-- Room `rid` contributes nothing to the conflict search. -/
def RoomNone (σc : List (Int × Int) → List (Int × Int))
    (σr : List Nat → List Nat) (c : AnyminoConstraint) (rid : Nat) : Prop :=
  closedBlockOf σc c rid = [] ∨ c.rooms = [] ∨
    scanAdjacent σc c rid (σr (roomScan σc c rid).1.adjacentRooms) = none

theorem scanAdjacent_none_iff (σc : List (Int × Int) → List (Int × Int))
    (c : AnyminoConstraint) (rid : Nat) (l : List Nat) :
    scanAdjacent σc c rid l = none ↔
      ∀ a ∈ l, closedBlockOf σc c a = [] ∨
        closedBlockOf σc c rid ≠ closedBlockOf σc c a := by
  induction l with
  | nil => simp [scanAdjacent]
  | cons a rest ih =>
    rw [List.forall_mem_cons]
    simp only [scanAdjacent]
    split_ifs with h1 h2
    · rw [ih]
      simp [h1]
    · simp only [reduceCtorEq, false_iff, not_and]
      intro hfirst
      rcases hfirst with hf | hf
      · exact absurd hf h1
      · exact absurd h2 hf
    · rw [ih]
      simp [h2]

theorem scanAdjacent_some (σc : List (Int × Int) → List (Int × Int))
    (c : AnyminoConstraint) (rid : Nat) (l : List Nat) (e : List (Nat × Bool))
    (h : scanAdjacent σc c rid l = some e) :
    ∃ a ∈ l, closedBlockOf σc c a ≠ [] ∧
      closedBlockOf σc c rid = closedBlockOf σc c a ∧
      e = explanationFor σc c rid a := by
  induction l with
  | nil => cases h
  | cons a rest ih =>
    simp only [scanAdjacent] at h
    split_ifs at h with h1 h2
    · obtain ⟨a', ha', hh⟩ := ih h
      exact ⟨a', List.mem_cons_of_mem a ha', hh⟩
    · refine ⟨a, List.mem_cons_self a rest, h1, h2, ?_⟩
      exact (Option.some.injEq _ _).mp h |>.symm
    · obtain ⟨a', ha', hh⟩ := ih h
      exact ⟨a', List.mem_cons_of_mem a ha', hh⟩

theorem scanRooms_none_iff (σc : List (Int × Int) → List (Int × Int))
    (σr : List Nat → List Nat) (c : AnyminoConstraint) (l : List Nat) :
    scanRooms σc σr c l = none ↔ ∀ rid ∈ l, RoomNone σc σr c rid := by
  induction l with
  | nil => simp [scanRooms]
  | cons rid rest ih =>
    rw [List.forall_mem_cons]
    simp only [scanRooms]
    split_ifs with h1 h2
    · rw [ih]
      simp [RoomNone, h1]
    · rw [ih]
      simp [RoomNone, h2]
    · rcases hsa : scanAdjacent σc c rid
        (σr (roomScan σc c rid).1.adjacentRooms) with _ | e
      · simp only
        rw [ih]
        have hrn : RoomNone σc σr c rid := Or.inr (Or.inr hsa)
        simp [hrn]
      · simp only [reduceCtorEq, false_iff, not_and]
        intro hfirst
        unfold RoomNone at hfirst
        rcases hfirst with hf | hf | hf
        · exact absurd hf h1
        · exact absurd hf h2
        · rw [hsa] at hf
          cases hf

theorem scanRooms_some (σc : List (Int × Int) → List (Int × Int))
    (σr : List Nat → List Nat) (c : AnyminoConstraint) (l : List Nat)
    (e : List (Nat × Bool)) (h : scanRooms σc σr c l = some e) :
    ∃ l₁ rid l₂, l = l₁ ++ rid :: l₂ ∧ (∀ r ∈ l₁, RoomNone σc σr c r) ∧
      closedBlockOf σc c rid ≠ [] ∧
      scanAdjacent σc c rid (σr (roomScan σc c rid).1.adjacentRooms) =
        some e := by
  induction l with
  | nil => cases h
  | cons rid rest ih =>
    simp only [scanRooms] at h
    split_ifs at h with h1 h2
    · obtain ⟨l₁, rid', l₂, he, hall, hne, hsa⟩ := ih h
      exact ⟨rid :: l₁, rid', l₂, by rw [he]; rfl,
        fun r hr => by
          rcases List.mem_cons.mp hr with h' | h'
          · subst h'
            exact Or.inl h1
          · exact hall r h',
        hne, hsa⟩
    · obtain ⟨l₁, rid', l₂, he, hall, hne, hsa⟩ := ih h
      exact ⟨rid :: l₁, rid', l₂, by rw [he]; rfl,
        fun r hr => by
          rcases List.mem_cons.mp hr with h' | h'
          · subst h'
            exact Or.inr (Or.inl h2)
          · exact hall r h',
        hne, hsa⟩
    · rcases hsa : scanAdjacent σc c rid
        (σr (roomScan σc c rid).1.adjacentRooms) with _ | e'
      · rw [hsa] at h
        simp only at h
        obtain ⟨l₁, rid', l₂, he, hall, hne, hsa'⟩ := ih h
        exact ⟨rid :: l₁, rid', l₂, by rw [he]; rfl,
          fun r hr => by
            rcases List.mem_cons.mp hr with h' | h'
            · subst h'
              exact Or.inr (Or.inr hsa)
            · exact hall r h',
          hne, hsa'⟩
      · rw [hsa] at h
        simp only [Option.some.injEq] at h
        subst h
        exact ⟨[], rid, rest, rfl, fun r hr => absurd hr (List.not_mem_nil r),
          h1, hsa⟩

/-- The bridge between the loop-level and the semantic description: room
`rid` contributes no conflict exactly when it is part of no violating
pair (as the first component). -/
theorem roomNone_iff_no_violation {σc : List (Int × Int) → List (Int × Int)}
    {σr : List Nat → List Nat}
    (hσc : ∀ l, (σc l).Perm l) (hσr : ∀ l, (σr l).Perm l)
    (c : AnyminoConstraint) (rid : Nat) :
    RoomNone σc σr c rid ↔ ∀ a, ¬ Violation c rid a := by
  constructor
  · intro hnone a hv
    obtain ⟨hcl1, hcl2, hne1, hne2, hadj, heq⟩ := hv
    have hcb1 : closedBlockOf σc c rid ≠ [] :=
      (closedBlockOf_ne_nil_iff hσc c rid).mpr ⟨hcl1, hne1⟩
    have hrooms : c.rooms ≠ [] := by
      intro hre
      have := blackCellsOf_oob hne1
      rw [hre] at this
      cases Nat.not_lt_zero rid this
    rcases hnone with hf | hf | hf
    · exact hcb1 hf
    · exact hrooms hf
    · rw [scanAdjacent_none_iff] at hf
      have hmem : a ∈ σr (roomScan σc c rid).1.adjacentRooms := by
        rw [(hσr _).mem_iff]
        exact (roomScan_adj_mem hσc hcl1 a).mpr hadj
      rcases hf a hmem with hf' | hf'
      · exact ((closedBlockOf_ne_nil_iff hσc c a).mpr ⟨hcl2, hne2⟩) hf'
      · apply hf'
        rw [closedBlockOf_eq_of hσc hcl1 hne1, closedBlockOf_eq_of hσc hcl2 hne2]
        exact heq
  · intro hno
    by_cases hcb : closedBlockOf σc c rid = []
    · exact Or.inl hcb
    · right
      right
      obtain ⟨hcl1, hne1⟩ := (closedBlockOf_ne_nil_iff hσc c rid).mp hcb
      rw [scanAdjacent_none_iff]
      intro a hmem
      by_contra hcon
      push_neg at hcon
      obtain ⟨hcb2, heqb⟩ := hcon
      obtain ⟨hcl2, hne2⟩ := (closedBlockOf_ne_nil_iff hσc c a).mp hcb2
      apply hno a
      refine ⟨hcl1, hcl2, hne1, hne2, ?_, ?_⟩
      · rw [← roomScan_adj_mem hσc hcl1 a, ← (hσr _).mem_iff]
        exact hmem
      · rw [← closedBlockOf_eq_of hσc hcl1 hne1,
          ← closedBlockOf_eq_of hσc hcl2 hne2]
        exact heqb

/-- `find_inconsistency` returns `none` exactly when no violating pair
exists. -/
theorem find_inconsistency_none_iff {σc : List (Int × Int) → List (Int × Int)}
    {σr : List Nat → List Nat}
    (hσc : ∀ l, (σc l).Perm l) (hσr : ∀ l, (σr l).Perm l)
    (c : AnyminoConstraint) :
    find_inconsistency σc σr c = none ↔
      ∀ rid arid, ¬ Violation c rid arid := by
  unfold find_inconsistency
  rw [scanRooms_none_iff]
  constructor
  · intro h rid arid hv
    have hlt : rid < c.rooms.length := blackCellsOf_oob hv.2.2.1
    have hmem : rid ∈ List.range c.rooms.length := List.mem_range.mpr hlt
    exact (roomNone_iff_no_violation hσc hσr c rid).mp (h rid hmem) arid hv
  · intro h rid _
    exact (roomNone_iff_no_violation hσc hσr c rid).mpr (fun a => h rid a)

theorem mem_map_lit {σc : List (Int × Int) → List (Int × Int)}
    (hσc : ∀ l, (σc l).Perm l) (c : AnyminoConstraint)
    (L : List (Int × Int)) (b : Bool) (q : Nat × Bool) :
    q ∈ (σc L).map (fun p => ((p.1 * (c.width : Int) + p.2).toNat, b)) ↔
      q.2 = b ∧ ∃ p ∈ L, q.1 = toIdx c p := by
  rw [List.mem_map]
  constructor
  · rintro ⟨p, hp, he⟩
    refine ⟨by rw [← he], p, (hσc L).mem_iff.mp hp, by rw [← he]; rfl⟩
  · rintro ⟨hb, p, hp, h1⟩
    exact ⟨p, (hσc L).mem_iff.mpr hp, Prod.ext h1.symm hb.symm⟩

/-- The membership description of a returned explanation, for a pair of
closed rooms. -/
theorem mem_explanationFor {σc : List (Int × Int) → List (Int × Int)}
    (hσc : ∀ l, (σc l).Perm l) {c : AnyminoConstraint} {rid arid : Nat}
    (hcl1 : RoomClosed c rid) (hcl2 : RoomClosed c arid) (q : Nat × Bool) :
    q ∈ explanationFor σc c rid arid ↔ ExplLit c rid arid q := by
  unfold explanationFor ExplLit
  simp only [List.mem_append]
  rw [mem_map_lit hσc, mem_map_lit hσc, mem_map_lit hσc, mem_map_lit hσc]
  constructor
  · rintro (((⟨hb, p, hp, h1⟩ | ⟨hb, p, hp, h1⟩) | ⟨hb, p, hp, h1⟩) |
      ⟨hb, p, hp, h1⟩)
    · exact Or.inl ⟨hb, p, Or.inl hp, h1⟩
    · exact Or.inl ⟨hb, p, Or.inr hp, h1⟩
    · exact Or.inr ⟨hb, p, Or.inl ((roomScan_white_mem hσc hcl1 p).mp hp), h1⟩
    · exact Or.inr ⟨hb, p, Or.inr ((roomScan_white_mem hσc hcl2 p).mp hp), h1⟩
  · rintro (⟨hb, p, (hp | hp), h1⟩ | ⟨hb, p, (hp | hp), h1⟩)
    · exact Or.inl (Or.inl (Or.inl ⟨hb, p, hp, h1⟩))
    · exact Or.inl (Or.inl (Or.inr ⟨hb, p, hp, h1⟩))
    · exact Or.inl (Or.inr
        ⟨hb, p, (roomScan_white_mem hσc hcl1 p).mpr hp, h1⟩)
    · exact Or.inr ⟨hb, p, (roomScan_white_mem hσc hcl2 p).mpr hp, h1⟩

theorem range_decomp {n : Nat} {l₁ l₂ : List Nat} {rid : Nat}
    (h : List.range n = l₁ ++ rid :: l₂) :
    rid = l₁.length ∧ ∀ r, r < rid → r ∈ l₁ := by
  have hlen : l₁.length + (l₂.length + 1) = n := by
    have := congrArg List.length h
    simp only [List.length_range, List.length_append, List.length_cons] at this
    omega
  have hlt : l₁.length < n := by omega
  have hrid : rid = l₁.length := by
    have h1 : (List.range n)[l₁.length]? = some rid := by
      rw [h, List.getElem?_append_right (le_refl l₁.length)]
      simp
    rw [List.getElem?_range hlt] at h1
    exact ((Option.some.injEq _ _).mp h1).symm
  refine ⟨hrid, ?_⟩
  intro r hr
  have hrn : r < n := by omega
  have h2 : (List.range n)[r]? = some r := List.getElem?_range hrn
  rw [h, List.getElem?_append] at h2
  rw [if_pos (by omega)] at h2
  exact List.getElem?_mem h2

/-- The full description of a `some` result of `find_inconsistency`: a
violating pair exists, the reported first room is the least room involved
in any violation, and the literals of the explanation are exactly the
described set. -/
theorem find_inconsistency_some {σc : List (Int × Int) → List (Int × Int)}
    {σr : List Nat → List Nat}
    (hσc : ∀ l, (σc l).Perm l) (hσr : ∀ l, (σr l).Perm l)
    (c : AnyminoConstraint) (e : List (Nat × Bool))
    (h : find_inconsistency σc σr c = some e) :
    ∃ rid arid, Violation c rid arid ∧
      (∀ r, r < rid → ∀ a, ¬ Violation c r a) ∧
      (∀ q, q ∈ e ↔ ExplLit c rid arid q) := by
  unfold find_inconsistency at h
  obtain ⟨l₁, rid, l₂, hdec, hall, hne, hsa⟩ := scanRooms_some _ _ _ _ _ h
  obtain ⟨hridlen, hpre⟩ := range_decomp hdec
  obtain ⟨hcl1, hne1⟩ := (closedBlockOf_ne_nil_iff hσc c rid).mp hne
  obtain ⟨arid, hamem, hacb, haeq, hexp⟩ := scanAdjacent_some _ _ _ _ _ hsa
  obtain ⟨hcl2, hne2⟩ := (closedBlockOf_ne_nil_iff hσc c arid).mp hacb
  have hadj : BlackAdjTo c rid arid := by
    rw [← roomScan_adj_mem hσc hcl1 arid, ← (hσr _).mem_iff]
    exact hamem
  have hveq : normalize_block (blackCellsOf c rid) =
      normalize_block (blackCellsOf c arid) := by
    rw [← closedBlockOf_eq_of hσc hcl1 hne1, ← closedBlockOf_eq_of hσc hcl2 hne2]
    exact haeq
  refine ⟨rid, arid, ⟨hcl1, hcl2, hne1, hne2, hadj, hveq⟩, ?_, ?_⟩
  · intro r hr a hv
    have hmem := hpre r hr
    exact (roomNone_iff_no_violation hσc hσr c r).mp (hall r hmem) a hv
  · intro q
    rw [hexp]
    exact mem_explanationFor hσc hcl1 hcl2 q

/-- Injectivity of the linear cell index for in-range columns. -/
theorem encode_inj {w a b a' b' : Nat} (hb : b < w) (hb' : b' < w)
    (h : a * w + b = a' * w + b') : a = a' ∧ b = b' := by
  have hw : 0 < w := Nat.lt_of_le_of_lt (Nat.zero_le b) hb
  have hmod : b = b' := by
    have h1 : (a * w + b) % w = (a' * w + b') % w := by rw [h]
    rw [Nat.add_comm (a * w) b, Nat.add_comm (a' * w) b',
      Nat.add_mul_mod_self_right, Nat.add_mul_mod_self_right] at h1
    rwa [Nat.mod_eq_of_lt hb, Nat.mod_eq_of_lt hb'] at h1
  refine ⟨?_, hmod⟩
  subst hmod
  have h2 : a * w = a' * w := by omega
  exact Nat.eq_of_mul_eq_mul_right hw h2

theorem intCast_linear_toNat (a b w : Nat) :
    (((a : Int)) * (w : Int) + (b : Int)).toNat = a * w + b := by
  rw [show ((a : Int) * (w : Int) + (b : Int)) = ((a * w + b : Nat) : Int) by
    push_cast; ring]
  rfl

theorem toIdx_natCast (c : AnyminoConstraint) (a b : Nat) :
    toIdx c ((a : Int), (b : Int)) = a * c.width + b := by
  unfold toIdx
  exact intCast_linear_toNat a b c.width

theorem toIdx_toNat (c : AnyminoConstraint) {p : Int × Int}
    (h1 : 0 ≤ p.1) (h2 : 0 ≤ p.2) :
    toIdx c p = p.1.toNat * c.width + p.2.toNat := by
  unfold toIdx
  rw [show p.1 = ((p.1.toNat : Nat) : Int) from (Int.toNat_of_nonneg h1).symm,
    show p.2 = ((p.2.toNat : Nat) : Int) from (Int.toNat_of_nonneg h2).symm,
    intCast_linear_toNat]
  simp [Int.toNat_of_nonneg h1, Int.toNat_of_nonneg h2]

/-- C1: `find_inconsistency` returns `none` exactly when no pair of
distinct rooms `R`, `R'` exists with `R` black-adjacent to `R'`, both
closed with non-empty black-cell sets and equal canonical shapes; and when
it returns an explanation, it does so for the first violating pair found —
the reported first room is the least room involved in any violation — and
the literal set of the explanation is exactly the black cells of both
rooms with `true` together with the boundary-white cells of both rooms
with `false` (for every valid hash-set iteration order). -/
theorem anymino_c1_find_inconsistency_characterization
    (c : AnyminoConstraint)
    (σc : List (Int × Int) → List (Int × Int)) (σr : List Nat → List Nat)
    (hσc : ∀ l, (σc l).Perm l) (hσr : ∀ l, (σr l).Perm l) :
    (find_inconsistency σc σr c = none ↔
      ∀ rid arid, ¬ Violation c rid arid) ∧
    (∀ e, find_inconsistency σc σr c = some e →
      ∃ rid arid, Violation c rid arid ∧
        (∀ r, r < rid → ∀ a, ¬ Violation c r a) ∧
        (∀ q, q ∈ e ↔ ExplLit c rid arid q)) :=
  ⟨find_inconsistency_none_iff hσc hσr c,
   fun e he => find_inconsistency_some hσc hσr c e he⟩

/-- C1 witness: the characterization applied to the concrete 2×4 conflict
state at the identity iteration orders. -/
theorem anymino_c1_witness :
    (find_inconsistency id id s24 = none ↔
      ∀ rid arid, ¬ Violation s24 rid arid) ∧
    (∀ e, find_inconsistency id id s24 = some e →
      ∃ rid arid, Violation s24 rid arid ∧
        (∀ r, r < rid → ∀ a, ¬ Violation s24 r a) ∧
        (∀ q, q ∈ e ↔ ExplLit s24 rid arid q)) :=
  anymino_c1_find_inconsistency_characterization s24 id id
    (fun l => List.Perm.refl l) (fun l => List.Perm.refl l)

/-- C7 counterexample: two calls on the identical board state but with two
different (both legitimate) hash-set iteration orders return explanations
whose literals are arranged differently, so the claim that any two calls
return the same explanation with its literals in the same order is false.
(The iteration order of a Rust `HashSet` is unspecified and differs
between the freshly created per-call sets.) -/
theorem anymino_c7_counterexample :
    ¬ (∀ (c : AnyminoConstraint)
        (σc σc' : List (Int × Int) → List (Int × Int))
        (σr σr' : List Nat → List Nat),
        (∀ l, (σc l).Perm l) → (∀ l, (σr l).Perm l) →
        (∀ l, (σc' l).Perm l) → (∀ l, (σr' l).Perm l) →
        find_inconsistency σc σr c = find_inconsistency σc' σr' c) := by
  intro h
  have he := h s24 id (fun l => l.reverse) id (fun l => l.reverse)
    (fun l => List.Perm.refl l) (fun l => List.Perm.refl l)
    (fun l => l.reverse_perm) (fun l => l.reverse_perm)
  revert he
  decide

/-- C7 (amended): the verdict of `find_inconsistency` is deterministic on
identical board states: whether it returns `none` or an explanation does
not depend on the hash-set iteration orders; only the reported pair and
the arrangement of the literals may vary. -/
theorem anymino_c7_amended_verdict_deterministic
    (c : AnyminoConstraint)
    (σc σc' : List (Int × Int) → List (Int × Int))
    (σr σr' : List Nat → List Nat)
    (hσc : ∀ l, (σc l).Perm l) (hσr : ∀ l, (σr l).Perm l)
    (hσc' : ∀ l, (σc' l).Perm l) (hσr' : ∀ l, (σr' l).Perm l) :
    (find_inconsistency σc σr c).isSome =
      (find_inconsistency σc' σr' c).isSome := by
  by_cases hv : ∀ rid arid, ¬ Violation c rid arid
  · rw [(find_inconsistency_none_iff hσc hσr c).mpr hv,
      (find_inconsistency_none_iff hσc' hσr' c).mpr hv]
  · have n1 : find_inconsistency σc σr c ≠ none := fun he =>
      hv ((find_inconsistency_none_iff hσc hσr c).mp he)
    have n2 : find_inconsistency σc' σr' c ≠ none := fun he =>
      hv ((find_inconsistency_none_iff hσc' hσr' c).mp he)
    rcases ho1 : find_inconsistency σc σr c with _ | e1
    · exact absurd ho1 n1
    · rcases ho2 : find_inconsistency σc' σr' c with _ | e2
      · exact absurd ho2 n2
      · rfl

/-- C7 witness: the amended verdict-determinism applied to the concrete
2×4 conflict state with two different iteration orders. -/
theorem anymino_c7_amended_witness :
    (find_inconsistency id id s24).isSome =
      (find_inconsistency (fun l => l.reverse) (fun l => l.reverse) s24).isSome :=
  anymino_c7_amended_verdict_deterministic s24 id (fun l => l.reverse)
    id (fun l => l.reverse)
    (fun l => List.Perm.refl l) (fun l => List.Perm.refl l)
    (fun l => l.reverse_perm) (fun l => l.reverse_perm)

/-- C3: a region one of whose black cells has a same-region Undecided
4-neighbor is never treated as closed: its `closed_blocks` entry stays
empty (no canonical shape), and — for a well-formed room partition — no
cell of that region ever appears among the literals of a returned conflict
explanation. -/
theorem anymino_c3_open_region_never_conflicts
    (c : AnyminoConstraint)
    (σc : List (Int × Int) → List (Int × Int)) (σr : List Nat → List Nat)
    (hσc : ∀ l, (σc l).Perm l) (hσr : ∀ l, (σr l).Perm l) (rid : Nat)
    (hopen : ∃ p ∈ blackCellsOf c rid, ∃ d ∈ dirs, undecNbrAt c rid p.1 p.2 d)
    (hwf : ∀ i, i < c.rooms.length → ∀ p ∈ c.rooms.getD i [],
      p.1 < c.height ∧ p.2 < c.width ∧ roomAt c.room_id_map p.1 p.2 = i) :
    closedBlockOf σc c rid = [] ∧
    ∀ q ∈ (find_inconsistency σc σr c).getD [],
      ∀ p ∈ c.rooms.getD rid [], q.1 ≠ p.1 * c.width + p.2 := by
  have hncl : ¬ RoomClosed c rid := by
    obtain ⟨p, hp, d, hd, hu⟩ := hopen
    intro hcl
    exact hcl p hp d hd hu
  constructor
  · by_contra hne
    exact hncl ((closedBlockOf_ne_nil_iff hσc c rid).mp hne).1
  · intro q hq p hp hqe
    have hridlt : rid < c.rooms.length := by
      by_contra hge
      rw [List.getD_eq_default _ _ (Nat.le_of_not_lt hge)] at hp
      cases hp
    obtain ⟨hph, hpw, hpr⟩ := hwf rid hridlt p hp
    rcases hfind : find_inconsistency σc σr c with _ | e
    · rw [hfind] at hq
      cases hq
    · rw [hfind] at hq
      simp only [Option.getD_some] at hq
      obtain ⟨r1, r2, hviol, _, hlit⟩ := find_inconsistency_some hσc hσr c e hfind
      have hq' := (hlit q).mp hq
      have hnr1 : r1 ≠ rid := fun he => hncl (he ▸ hviol.1)
      have hnr2 : r2 ≠ rid := fun he => hncl (he ▸ hviol.2.1)
      rcases hq' with ⟨_, p', hp', h1⟩ | ⟨_, p', hp', h1⟩
      · -- a black-cell literal of r1 or r2
        obtain ⟨r', hrne, hrbl, hpmem⟩ :
            ∃ r', r' ≠ rid ∧ blackCellsOf c r' ≠ [] ∧
              p' ∈ blackCellsOf c r' := by
          rcases hp' with hm | hm
          · exact ⟨r1, hnr1, hviol.2.2.1, hm⟩
          · exact ⟨r2, hnr2, hviol.2.2.2.1, hm⟩
        have hrlt : r' < c.rooms.length := blackCellsOf_oob hrbl
        obtain ⟨q', hq'mem, _, hq'eq⟩ := (mem_blackCellsOf c r' p').mp hpmem
        obtain ⟨_, hq'w, hq'r⟩ := hwf r' hrlt q' hq'mem
        have hidx : q.1 = q'.1 * c.width + q'.2 := by
          rw [h1, hq'eq, toIdx_natCast]
        rw [hqe] at hidx
        obtain ⟨he1, he2⟩ := encode_inj hpw hq'w hidx
        rw [← he1, ← he2] at hq'r
        rw [hpr] at hq'r
        exact hrne hq'r.symm
      · -- a boundary-white literal of r1 or r2
        obtain ⟨r', hrne, hbw⟩ :
            ∃ r', r' ≠ rid ∧ BoundaryWhite c r' p' := by
          rcases hp' with hm | hm
          · exact ⟨r1, hnr1, hm⟩
          · exact ⟨r2, hnr2, hm⟩
        obtain ⟨pb, _, d, _, hgen⟩ := hbw
        have hin := hgen.2.1
        have hroom := hgen.2.2.1
        have hb1 : (0 : Int) ≤ p'.1 := hin.1
        have hb2 : p'.1 < (c.height : Int) := hin.2.1
        have hb3 : (0 : Int) ≤ p'.2 := hin.2.2.1
        have hb4 : p'.2 < (c.width : Int) := hin.2.2.2
        have hidx : q.1 = p'.1.toNat * c.width + p'.2.toNat := by
          rw [h1, toIdx_toNat c hb1 hb3]
        have hwlt : p'.2.toNat < c.width := by omega
        rw [hqe] at hidx
        obtain ⟨he1, he2⟩ := encode_inj hpw hwlt hidx
        rw [← he1, ← he2] at hroom
        rw [hpr] at hroom
        exact hrne hroom.symm

/-- The 2×4 board with the top-left cell Black, its right neighbor
Undecided, and the rest of both rows Black. -/
def s24u : AnyminoConstraint :=
  applyNotifies
    [(0, true), (2, true), (3, true),
     (4, true), (5, true), (6, true), (7, true)]
    (AnyminoConstraint.new 2 4 rooms24 roomMap24)

/-- C3 witness: on the 2×4 grid with `(0,0)` Black and `(0,1)` Undecided in
the top room, the top room gets no canonical shape and no literal of the
(absent) conflict explanation touches it. -/
theorem anymino_c3_witness :
    closedBlockOf id s24u 0 = [] ∧
    ∀ q ∈ (find_inconsistency id id s24u).getD [],
      ∀ p ∈ s24u.rooms.getD 0 [], q.1 ≠ p.1 * s24u.width + p.2 :=
  anymino_c3_open_region_never_conflicts s24u id id
    (fun l => List.Perm.refl l) (fun l => List.Perm.refl l) 0
    (by decide) (by decide)

instance (c : AnyminoConstraint) (rid a : Nat) : Decidable (BlackAdjTo c rid a) := by
  unfold BlackAdjTo
  infer_instance

instance (c : AnyminoConstraint) (rid : Nat) (y x : Int) (d : Int × Int)
    (q : Int × Int) : Decidable (whiteGen c rid y x d q) := by
  unfold whiteGen
  infer_instance

instance (c : AnyminoConstraint) (rid : Nat) (q : Int × Int) :
    Decidable (BoundaryWhite c rid q) := by
  unfold BoundaryWhite
  infer_instance

instance (c : AnyminoConstraint) (rid arid : Nat) :
    Decidable (Violation c rid arid) := by
  unfold Violation
  infer_instance

/-- C4: on the 2×4 grid partitioned into its two rows (top row region A,
bottom row region B), after notifying every cell of both rows as Black,
`find_inconsistency` returns a non-empty explanation whose literal set
contains every one of the 8 cells paired with `true` and contains no
literal paired with `false` — for every valid hash-set iteration order. -/
theorem anymino_c4_concrete_conflict
    (σc : List (Int × Int) → List (Int × Int)) (σr : List Nat → List Nat)
    (hσc : ∀ l, (σc l).Perm l) (hσr : ∀ l, (σr l).Perm l) :
    (find_inconsistency σc σr s24).isSome = true ∧
    ∀ e, find_inconsistency σc σr s24 = some e →
      e ≠ [] ∧ (∀ i, i < 8 → (i, true) ∈ e) ∧ (∀ q ∈ e, q.2 = true) := by
  have hviol : Violation s24 0 1 := by decide
  have hsome : (find_inconsistency σc σr s24).isSome = true := by
    rcases h : find_inconsistency σc σr s24 with _ | e
    · exact absurd hviol ((find_inconsistency_none_iff hσc hσr s24).mp h 0 1)
    · rfl
  refine ⟨hsome, ?_⟩
  intro e he
  obtain ⟨rid, arid, hv, hmin, hlit⟩ := find_inconsistency_some hσc hσr s24 e he
  have hrid0 : rid = 0 := by
    by_contra hne
    exact hmin 0 (Nat.pos_of_ne_zero hne) 1 hviol
  subst hrid0
  have harid1 : arid = 1 := by
    obtain ⟨p, hp, d, hd, hg⟩ := hv.2.2.2.2.1
    have hin := hg.1
    have hra := hg.2.1
    have hane := hg.2.2.1
    have hh : s24.height = 2 := by decide
    have hw : s24.width = 4 := by decide
    have hb1 : (p.1 + d.1).toNat < 2 := by
      have h2 := hin.2.1
      have h0 := hin.1
      rw [hh] at h2
      omega
    have hb2 : (p.2 + d.2).toNat < 4 := by
      have h2 := hin.2.2.2
      have h0 := hin.2.2.1
      rw [hw] at h2
      omega
    have hrv : ∀ y, y < 2 → ∀ x, x < 4 →
        roomAt s24.room_id_map y x = 0 ∨ roomAt s24.room_id_map y x = 1 := by
      decide
    rcases hrv _ hb1 _ hb2 with h | h
    · rw [hra] at h
      exact absurd h hane
    · rw [hra] at h
      exact h
  subst harid1
  refine ⟨?_, ?_, ?_⟩
  · intro hnil
    have hm := (hlit (0, true)).mpr
      (Or.inl ⟨rfl, ((0 : Int), (0 : Int)), Or.inl (by decide), by decide⟩)
    rw [hnil] at hm
    cases hm
  · intro i hi
    interval_cases i
    · exact (hlit _).mpr
        (Or.inl ⟨rfl, ((0 : Int), (0 : Int)), Or.inl (by decide), by decide⟩)
    · exact (hlit _).mpr
        (Or.inl ⟨rfl, ((0 : Int), (1 : Int)), Or.inl (by decide), by decide⟩)
    · exact (hlit _).mpr
        (Or.inl ⟨rfl, ((0 : Int), (2 : Int)), Or.inl (by decide), by decide⟩)
    · exact (hlit _).mpr
        (Or.inl ⟨rfl, ((0 : Int), (3 : Int)), Or.inl (by decide), by decide⟩)
    · exact (hlit _).mpr
        (Or.inl ⟨rfl, ((1 : Int), (0 : Int)), Or.inr (by decide), by decide⟩)
    · exact (hlit _).mpr
        (Or.inl ⟨rfl, ((1 : Int), (1 : Int)), Or.inr (by decide), by decide⟩)
    · exact (hlit _).mpr
        (Or.inl ⟨rfl, ((1 : Int), (2 : Int)), Or.inr (by decide), by decide⟩)
    · exact (hlit _).mpr
        (Or.inl ⟨rfl, ((1 : Int), (3 : Int)), Or.inr (by decide), by decide⟩)
  · intro q hq
    rcases (hlit q).mp hq with ⟨hb, _⟩ | ⟨hb, p, hor, _⟩
    · exact hb
    · exfalso
      have hnw : ∀ r' p', ¬ BoundaryWhite s24 r' p' := by
        rintro r' p' ⟨pb, _, d, _, hgen⟩
        have hwv := hgen.2.2.2
        have hin := hgen.2.1
        have hh : s24.height = 2 := by decide
        have hw : s24.width = 4 := by decide
        have hb1 : p'.1.toNat < 2 := by
          have h2 := hin.2.1
          have h0 := hin.1
          rw [hh] at h2
          omega
        have hb2 : p'.2.toNat < 4 := by
          have h2 := hin.2.2.2
          have h0 := hin.2.2.1
          rw [hw] at h2
          omega
        have hall : ∀ y, y < 2 → ∀ x, x < 4 →
            boardAt s24.board y x ≠ CellState.White := by decide
        exact hall _ hb1 _ hb2 hwv
      rcases hor with h | h
      · exact hnw 0 p h
      · exact hnw 1 p h

/-- C4 witness: the concrete conflict at the identity iteration orders. -/
theorem anymino_c4_witness :
    (find_inconsistency id id s24).isSome = true ∧
    ∀ e, find_inconsistency id id s24 = some e →
      e ≠ [] ∧ (∀ i, i < 8 → (i, true) ∈ e) ∧ (∀ q ∈ e, q.2 = true) :=
  anymino_c4_concrete_conflict id id
    (fun l => List.Perm.refl l) (fun l => List.Perm.refl l)
